import Mathlib

/-!
Verification development for the mucgly streaming text preprocessor
(`src/src/mucgly_mod.c`, `src/include/mucgly_mod.h`).

The C core is shallowly embedded: bytes are `Nat` (0..255), C strings are
NUL-free `List Nat`, file handles become the list of bytes still unread,
`EOF` becomes `Option.none`, and every stateful C function becomes a pure
Lean function from the old state to the new state (plus its return value).
Process-terminating error reports (`mucgly_error` / `mucgly_fatal`, which
print and `exit(EXIT_FAILURE)`) become explicit `die` results carrying the
severity word used by the C code.  Reads of freed or null memory (which are
undefined behavior in the C source) are modelled as a distinct `ub` result
or as `Option.none` so that no theorem can rely on them.

Identifier note: a few C names are transposed (`sf_mark_macro` becomes
`sf_macro_mark`, `ps_enter_macro` becomes `ps_macro_enter`, `ps_get_macro`
becomes `ps_macro_get`, the fields `macro`/`in_macro` become
`macro_on`/`in_macro_lv`, `hookpair_t.end` becomes `hend`); everything else
keeps the source's names.
-/

namespace Mucgly

/-- Bytes as read from the input stream (0..255; `EOF` is `Option.none`). -/
abbrev Byte := Nat

/-- Truncation of a byte list at the first NUL, the view `strcmp` sees of a
C string. -/
def cstrTrunc (s : List Byte) : List Byte := s.takeWhile (fun b => b ≠ 0)

/-- Equality test of two byte lists viewed as NUL-terminated C strings
(`g_strcmp0(a, b) == 0`). -/
def cstrEq (a b : List Byte) : Bool := decide (cstrTrunc a = cstrTrunc b)

/-- First byte of a C string: `s[0]`; the empty string yields its NUL
terminator 0, exactly as in C. -/
def strFirst (s : List Byte) : Byte := s.headD 0

/-- Membership test in the `hook_1st_chars` lookup table.  The C 256-byte
0/1 array is modelled as the list of indices whose entry is 1. -/
def tblGet (t : List Byte) (b : Byte) : Bool := decide (b ∈ t)

/-- Set entry `b` of the lookup table to 1. -/
def tblSet (t : List Byte) (b : Byte) : List Byte := if b ∈ t then t else b :: t

/-- Set entry `b` of the lookup table to 0. -/
def tblClr (t : List Byte) (b : Byte) : List Byte := t.erase b

/-- `len_str_cmp`: compare `s2` against `s1` up to `strlen(s1)`; returns the
match length (0 for no match).  For a NUL-free `s1` this is a prefix test. -/
def len_str_cmp (s1 s2 : List Byte) : Nat := if s1.isPrefixOf s2 then s1.length else 0

/-- `hookpair_t`: pair of hooks for macro begin/end plus optional
suspension marker (`end` is spelled `hend`). -/
structure Hookpair where
  beg : List Byte
  hend : List Byte
  susp : Option (List Byte)
deriving DecidableEq

/-- All-NULL hookpair (freshly `g_new0`-ed memory). -/
def hookpairNull : Hookpair := ⟨[], [], none⟩

/-- `stackfile_t`: one input source.  `stream` is the unread remainder of
the file handle; `buf` is the push-back stack with its head the next byte
to read (the C keeps the next byte at the right end of a GString; only the
orientation differs).  `hook_1st_chars` is the set of first bytes, see
`tblGet`. -/
structure Stackfile where
  stream : List Byte
  buf : List Byte
  lineno : Int
  column : Int
  old_column : Int
  macro_on : Bool
  macro_line : Int
  macro_col : Int
  eat_tail : Bool
  hook : Hookpair
  hookesc : List Byte
  eater : Option (List Byte)
  multi : Option (List Hookpair)
  curhook : List Hookpair
  hook_esc_eq_beg : Bool
  hook_esc_eq_end : Bool
  hook_1st_chars : List Byte
deriving DecidableEq

/-- Zeroed `stackfile_t` (fresh `g_new0` allocation, before any field is
filled in). -/
def sfNull : Stackfile :=
  { stream := [], buf := [], lineno := 0, column := 0, old_column := 0,
    macro_on := false, macro_line := 0, macro_col := 0, eat_tail := false,
    hook := hookpairNull, hookesc := [], eater := none, multi := none,
    curhook := [], hook_esc_eq_beg := false, hook_esc_eq_end := false,
    hook_1st_chars := [] }

/-- Bytes still readable from a source: push-back buffer first, then the
file stream. -/
def sfRemaining (sf : Stackfile) : List Byte := sf.buf ++ sf.stream

/-- Two sources agree on every field the parser's control flow can depend
on (everything except the position-tracking and macro-start-marker
fields).  Reading and putting back bytes preserves this view. -/
def sfCfgEq (a b : Stackfile) : Prop :=
  a.hook = b.hook ∧ a.hookesc = b.hookesc ∧ a.eater = b.eater ∧ a.multi = b.multi ∧
  a.curhook = b.curhook ∧ a.hook_esc_eq_beg = b.hook_esc_eq_beg ∧
  a.hook_esc_eq_end = b.hook_esc_eq_end ∧ a.hook_1st_chars = b.hook_1st_chars ∧
  a.eat_tail = b.eat_tail

/-- Position update performed by `sf_get` on a successfully read byte. -/
def sf_pos_adv (sf : Stackfile) (c : Byte) : Stackfile :=
  if c = 10 then
    { sf with old_column := sf.column, lineno := sf.lineno + 1, column := 0 }
  else
    { sf with column := sf.column + 1 }

/-- One raw read of `sf_get` (buffer first, then stream) together with the
position update; the `eat_tail` handling sits in `sf_get`. -/
def sf_get1 (sf : Stackfile) : Option Byte × Stackfile :=
  match sf.buf with
  | c :: rest => (some c, sf_pos_adv { sf with buf := rest } c)
  | [] =>
    match sf.stream with
    | c :: rest => (some c, sf_pos_adv { sf with stream := rest } c)
    | [] => (none, sf)

/-- `sf_get`: get one byte from a source.  If `eat_tail` is set it is
cleared and, unless the read hit end-of-source, the byte is discarded and
one more byte is read (the `re_read` goto in C). -/
def sf_get (sf : Stackfile) : Option Byte × Stackfile :=
  if (sf_get1 sf).2.eat_tail then
    match (sf_get1 sf).1 with
    | none => (none, { (sf_get1 sf).2 with eat_tail := false })
    | some _ => sf_get1 { (sf_get1 sf).2 with eat_tail := false }
  else sf_get1 sf

/-- `sf_put`: put one byte back (undoes the position update, pushes onto
the buffer). -/
def sf_put (sf : Stackfile) (c : Byte) : Stackfile :=
  let sf :=
    if c = 10 then
      { sf with lineno := sf.lineno - 1, column := sf.old_column, old_column := 0 }
    else
      { sf with column := sf.column - 1 }
  { sf with buf := c :: sf.buf }

/-- `sf_mark_macro`: store the macro start position. -/
def sf_macro_mark (sf : Stackfile) : Stackfile :=
  { sf with macro_on := true, macro_line := sf.lineno, macro_col := sf.column }

/-- `sf_unmark_macro`. -/
def sf_macro_unmark (sf : Stackfile) : Stackfile := { sf with macro_on := false }

/-- First bytes contributed by one pair: `beg`, `end` and (when present)
`susp`, in the order the C code sets them. -/
def tblAddPair (t : List Byte) (p : Hookpair) : List Byte :=
  match p.susp with
  | some s => tblSet (tblSet (tblSet t (strFirst p.beg)) (strFirst p.hend)) (strFirst s)
  | none => tblSet (tblSet t (strFirst p.beg)) (strFirst p.hend)

/-- Multi-mode branch of `sf_update_hook_cache`: esc can never equal a
multi hook, so the equality flags are cleared, and only the latest pair's
first bytes (plus esc's) are added to the existing table. -/
def sf_cache_multi (sf : Stackfile) (pairs : List Hookpair) : Stackfile :=
  { sf with hook_esc_eq_beg := false, hook_esc_eq_end := false,
            hook_1st_chars :=
              tblSet (tblAddPair sf.hook_1st_chars (pairs.getLastD hookpairNull))
                (strFirst sf.hookesc) }

/-- Single-mode branch of `sf_update_hook_cache`: recompute the equality
flags and rebuild the table from scratch (`memset` then the three first
bytes). -/
def sf_cache_single (sf : Stackfile) : Stackfile :=
  { sf with hook_esc_eq_beg := cstrEq sf.hookesc sf.hook.beg,
            hook_esc_eq_end := cstrEq sf.hookesc sf.hook.hend,
            hook_1st_chars :=
              tblSet (tblSet (tblSet [] (strFirst sf.hook.beg)) (strFirst sf.hook.hend))
                (strFirst sf.hookesc) }

/-- `sf_update_hook_cache`: recompute the esc-equality flags and the
first-byte lookup table.  In multi mode only the latest pair's first bytes
(and esc's) are added; in single mode the table is cleared and rebuilt.
Callers guarantee a non-empty pair vector in multi mode. -/
def sf_update_hook_cache (sf : Stackfile) : Stackfile :=
  match sf.multi with
  | some pairs => sf_cache_multi sf pairs
  | none => sf_cache_single sf

/-- `hook_t` (the `hook_none`/`hook_end`/`hook_beg`/`hook_esc` enum). -/
inductive HookKind where
  | hnone
  | hend
  | hbeg
  | hesc
deriving DecidableEq

/-- `sf_set_hook`.  Switching `beg`/`end` while multi-hooks are active
frees the multi vector but leaves `sf->multi` dangling, so the subsequent
cache update reads freed memory — undefined behavior, modelled as `none`.
All defined paths return `some` of the updated source. -/
def sf_set_hook (sf : Stackfile) (k : HookKind) (v : List Byte) : Option Stackfile :=
  if sf.multi.isSome && !(k == HookKind.hesc) then none
  else
    let sf :=
      match k with
      | .hbeg => { sf with hook := { sf.hook with beg := v } }
      | .hend => { sf with hook := { sf.hook with hend := v } }
      | .hesc =>
        { sf with
          hook_1st_chars := tblClr sf.hook_1st_chars (strFirst sf.hookesc),
          hookesc := v }
      | .hnone => sf
    some (sf_update_hook_cache sf)

/-- `sf_set_eater` (NULL clears the eater). -/
def sf_set_eater (sf : Stackfile) (v : Option (List Byte)) : Stackfile :=
  { sf with eater := v }

/-- `MULTI_LIMIT`. -/
def MULTI_LIMIT : Nat := 128

/-- Append step of `sf_multi_hook`, after the existing pair vector `ps`
and table `t` have been selected (fresh mode clears both): fatal exit at
the 127-pair limit, else append and refresh the cache. -/
def sf_multi_hook_grow (sf : Stackfile) (ps : List Hookpair) (beg hend : List Byte)
    (susp : Option (List Byte)) (t : List Byte) : Option Stackfile :=
  if MULTI_LIMIT - 1 ≤ ps.length then none
  else
    some (sf_update_hook_cache
      { sf with multi := some (ps ++ [⟨beg, hend, susp⟩]), hook_1st_chars := t })

/-- `sf_multi_hook`: append a multi-hook pair.  Fatal process exits (esc
equal to a hook, or too many pairs) are modelled as `none`.  Entering multi
mode clears the first-byte table before the cache update re-populates it
from the new (latest) pair and esc. -/
def sf_multi_hook (sf : Stackfile) (beg hend : List Byte) (susp : Option (List Byte)) :
    Option Stackfile :=
  if cstrEq sf.hookesc beg || cstrEq sf.hookesc hend then none
  else
    match sf.multi with
    | none => sf_multi_hook_grow sf [] beg hend susp []
    | some ps => sf_multi_hook_grow sf ps beg hend susp sf.hook_1st_chars

/-- Default hook values (`HOOKBEG_DEFAULT "-<"` etc.). -/
def HOOKBEG_DEFAULT : List Byte := [45, 60]

/-- Default hookend `">-"`. -/
def HOOKEND_DEFAULT : List Byte := [62, 45]

/-- Default hookesc, a single backslash. -/
def HOOKESC_DEFAULT : List Byte := [92]

/-- `sf_new(filename, NULL)`: fresh source with the default hooks,
positions zeroed, caches set up; `content` is the file's byte content. -/
def sf_new_default (content : List Byte) : Stackfile :=
  sf_update_hook_cache
    { sfNull with
      stream := content,
      hook := ⟨HOOKBEG_DEFAULT, HOOKEND_DEFAULT, none⟩,
      hookesc := HOOKESC_DEFAULT }

/-- `sf_new(filename, inherit)`: fresh source inheriting the hook pair and
esc of `inh`, then replaying its multi-hook pairs through `sf_multi_hook`
(which can hit the fatal exits, hence `Option`). -/
def sf_new_inherit (content : List Byte) (inh : Stackfile) : Option Stackfile :=
  let sf := sf_update_hook_cache
    { sfNull with
      stream := content,
      hook := ⟨inh.hook.beg, inh.hook.hend, inh.hook.susp⟩,
      hookesc := inh.hookesc }
  match inh.multi with
  | none => some sf
  | some pairs =>
    pairs.foldlM (fun acc p => sf_multi_hook acc p.beg p.hend p.susp) sf

/-- Delimiter strings contributed by one multi-hook pair. -/
def pairDelims (p : Hookpair) : List (List Byte) :=
  p.beg :: p.hend :: (match p.susp with | some s => [s] | none => [])

/-- Delimiter strings active in a source's configuration: single-mode
`beg`/`end` and esc, or in multi mode every pair's `beg`/`end`/`susp` and
esc. -/
def activeDelims (sf : Stackfile) : List (List Byte) :=
  match sf.multi with
  | none => [sf.hook.beg, sf.hook.hend, sf.hookesc]
  | some pairs => sf.hookesc :: (pairs.map pairDelims).flatten

/-- Bitmap completeness: the first byte of every active delimiter is in the
first-byte table. -/
def bitmapComplete (sf : Stackfile) : Prop :=
  ∀ d ∈ activeDelims sf, tblGet sf.hook_1st_chars (strFirst d) = true

instance (sf : Stackfile) : Decidable (bitmapComplete sf) := by
  unfold bitmapComplete; infer_instance

/-- Configurations reachable from a freshly created default source by the
three mutators (`sf_set_hook`, `sf_set_eater`, `sf_multi_hook`); the
`Option`-valued mutators contribute only their defined (`some`) outcomes. -/
inductive SfReach : Stackfile → Prop where
  | init (content : List Byte) : SfReach (sf_new_default content)
  | set_hook {sf sf' : Stackfile} (k : HookKind) (v : List Byte) :
      SfReach sf → sf_set_hook sf k v = some sf' → SfReach sf'
  | set_eater {sf : Stackfile} (v : Option (List Byte)) :
      SfReach sf → SfReach (sf_set_eater sf v)
  | multi {sf sf' : Stackfile} (b e : List Byte) (s : Option (List Byte)) :
      SfReach sf → sf_multi_hook sf b e s = some sf' → SfReach sf'

/-- Reachable configurations when `sf_set_hook` is only invoked in
single-hook mode (no hook mutation while multi-hooks are active). -/
inductive SfReachG : Stackfile → Prop where
  | init (content : List Byte) : SfReachG (sf_new_default content)
  | set_hook {sf sf' : Stackfile} (k : HookKind) (v : List Byte) :
      SfReachG sf → sf.multi = none → sf_set_hook sf k v = some sf' → SfReachG sf'
  | set_eater {sf : Stackfile} (v : Option (List Byte)) :
      SfReachG sf → SfReachG (sf_set_eater sf v)
  | multi {sf sf' : Stackfile} (b e : List Byte) (s : Option (List Byte)) :
      SfReachG sf → sf_multi_hook sf b e s = some sf' → SfReachG sf'

/-- `filestack_t`.  `file` is the visible stack (head = top, where
`fs->file` points); `hidden` holds sources pushed by
`fs_push_file_delayed`, which live in GList nodes linked just before the
visible top (head of `hidden` = node adjacent to the top pointer). -/
structure Filestack where
  hidden : List Stackfile
  file : List Stackfile
deriving DecidableEq

/-- `fs_pop_file`: drop (and close) the top source. -/
def fs_pop_file (fs : Filestack) : Filestack := { fs with file := fs.file.tail }

/-- `fs_push_file` with the new source already opened. -/
def fs_push_file (fs : Filestack) (sf : Stackfile) : Filestack :=
  { fs with file := sf :: fs.file }

/-- `fs_push_file_delayed`: push, then step the top pointer back so the new
source sits just before the visible top until `post_push` is applied. -/
def fs_push_file_delayed (fs : Filestack) (sf : Stackfile) : Filestack :=
  { fs with hidden := sf :: fs.hidden }

/-- Application of the `post_push` flag (`ps->fs->file = ps->fs->file->prev`):
the most recently delayed-pushed source becomes the visible top.  With no
delayed source the C pointer walks off the list (`prev == NULL`) and the
stack top becomes null. -/
def fs_post_push (fs : Filestack) : Filestack :=
  match fs.hidden with
  | p :: h => { hidden := h, file := p :: fs.file }
  | [] => { hidden := [], file := [] }

/-- `fs_get`: one byte from the top source only; EOF is returned without
popping so that put-back stays legal. -/
def fs_get (fs : Filestack) : Option Byte × Filestack :=
  match fs.file with
  | sf :: rest => ((sf_get sf).1, { fs with file := (sf_get sf).2 :: rest })
  | [] => (none, fs)

/-- Pop-on-EOF loop of `fs_get_one` over the visible stack. -/
def fs_get_one_aux : List Stackfile → Option Byte × List Stackfile
  | [] => (none, [])
  | sf :: rest =>
    match sf_get sf with
    | (some c, sf') => (some c, sf' :: rest)
    | (none, _) => fs_get_one_aux rest

/-- `fs_get_one`: read from the top source, popping exhausted sources until
a byte arrives or the stack empties. -/
def fs_get_one (fs : Filestack) : Option Byte × Filestack :=
  ((fs_get_one_aux fs.file).1, { fs with file := (fs_get_one_aux fs.file).2 })

/-- `fs_put`: put one byte back to the top source (a null top would be
dereferenced in C; unreachable in the parser, modelled as no-op). -/
def fs_put (fs : Filestack) (c : Byte) : Filestack :=
  match fs.file with
  | sf :: rest => { fs with file := sf_put sf c :: rest }
  | [] => fs

/-- `fs_get_n`: up to `n` bytes via `fs_get`, stopping early at EOF. -/
def fs_get_n (fs : Filestack) : Nat → List Byte × Filestack
  | 0 => ([], fs)
  | Nat.succ m =>
    match fs_get fs with
    | (some c, fs') =>
      match fs_get_n fs' m with
      | (rest, fs'') => (c :: rest, fs'')
    | (none, fs') => ([], fs')

/-- `fs_put_n`: put a byte string back, newest (last byte) first, so the
head of `s` is the next byte read.  (The C `n` argument always carries the
string's length at the call sites; `n = 0` means `strlen`.) -/
def fs_put_n (fs : Filestack) : List Byte → Filestack
  | [] => fs
  | c :: rest => fs_put (fs_put_n fs rest) c

/-- `outfile_t`: one output sink; `outBytes` is everything written to its
stream so far. -/
structure Outfile where
  outBytes : List Byte
  lineno : Int
  blocked : Bool
deriving DecidableEq

/-- `pstate_t`.  The scratch buffers `check_buf`/`match_buf` are pure
temporaries in C and are not part of the abstract state; `macro_buf` is.
`in_macro` is spelled `in_macro_lv`. -/
structure Pstate where
  fs : Filestack
  macro_buf : List Byte
  in_macro_lv : Int
  suspension : Int
  output : List Outfile
  flush : Bool
  post_push : Bool
  post_pop : Bool
deriving DecidableEq

/-- Top source of the parser (`ps_topfile`); the default is only reached
where C would dereference a null pointer. -/
def ps_topfileD (ps : Pstate) : Stackfile := ps.fs.file.headD sfNull

/-- `ps_has_file`. -/
def ps_has_file (ps : Pstate) : Bool := !ps.fs.file.isEmpty

/-- Apply a function to the top source, if any. -/
def ps_mod_topfile (ps : Pstate) (f : Stackfile → Stackfile) : Pstate :=
  match ps.fs.file with
  | sf :: rest => { ps with fs := { ps.fs with file := f sf :: rest } }
  | [] => ps

/-- `fs_put` lifted to the parser state. -/
def ps_fs_put (ps : Pstate) (c : Byte) : Pstate := { ps with fs := fs_put ps.fs c }

/-- `ps_in`: one byte through the file stack (`fs_get_one`). -/
def ps_in (ps : Pstate) : Option Byte × Pstate :=
  ((fs_get_one ps.fs).1, { ps with fs := (fs_get_one ps.fs).2 })

/-- `ps_out`: write one byte to the top sink unless it is blocked; count
newlines.  (`flush` only flushes the stream, no effect on the bytes.) -/
def ps_out (ps : Pstate) (c : Byte) : Pstate :=
  match ps.output with
  | ofl :: rest =>
    if ofl.blocked then ps
    else
      { ps with output :=
          { outBytes := ofl.outBytes ++ [c],
            lineno := if c = 10 then ofl.lineno + 1 else ofl.lineno,
            blocked := ofl.blocked } :: rest }
  | [] => ps

/-- `ps_out_str`. -/
def ps_out_str (ps : Pstate) (s : List Byte) : Pstate := s.foldl ps_out ps

/-- `ps_out_str` with a possibly-NULL string (no output for NULL). -/
def ps_out_strO (ps : Pstate) (s : Option (List Byte)) : Pstate :=
  match s with
  | some s => ps_out_str ps s
  | none => ps

/-- `ps_block_output`: set the top sink's blocked flag. -/
def ps_block_output (ps : Pstate) : Pstate :=
  match ps.output with
  | ofl :: rest => { ps with output := { ofl with blocked := true } :: rest }
  | [] => ps

/-- `ps_unblock_output`. -/
def ps_unblock_output (ps : Pstate) : Pstate :=
  match ps.output with
  | ofl :: rest => { ps with output := { ofl with blocked := false } :: rest }
  | [] => ps

/-- `ps_push_file` (output stack): push a new sink. -/
def ps_push_file (ps : Pstate) (ofl : Outfile) : Pstate :=
  { ps with output := ofl :: ps.output }

/-- `ps_pop_file` (output stack). -/
def ps_pop_file (ps : Pstate) : Pstate := { ps with output := ps.output.tail }

/-- `ps_start_collect`. -/
def ps_start_collect (ps : Pstate) : Pstate := { ps with macro_buf := [] }

/-- `ps_collect`. -/
def ps_collect (ps : Pstate) (c : Byte) : Pstate :=
  { ps with macro_buf := ps.macro_buf ++ [c] }

/-- `ps_collect_str`. -/
def ps_collect_str (ps : Pstate) (s : List Byte) : Pstate :=
  { ps with macro_buf := ps.macro_buf ++ s }

/-- `ps_push_curhook`: save the matched pair on the source's curhook
stack. -/
def ps_push_curhook (sf : Stackfile) (pair : Hookpair) : Stackfile :=
  { sf with curhook := pair :: sf.curhook }

/-- `ps_pop_curhook`. -/
def ps_pop_curhook (sf : Stackfile) : Stackfile :=
  { sf with curhook := sf.curhook.tail }

/-- `ps_current_hookbeg` (curhook top; empty curhook is a C null
dereference, modelled by the null pair). -/
def ps_current_hookbeg (ps : Pstate) : List Byte :=
  ((ps_topfileD ps).curhook.headD hookpairNull).beg

/-- `ps_current_hookend`. -/
def ps_current_hookend (ps : Pstate) : List Byte :=
  ((ps_topfileD ps).curhook.headD hookpairNull).hend

/-- `ps_current_hooksusp`. -/
def ps_current_hooksusp (ps : Pstate) : Option (List Byte) :=
  ((ps_topfileD ps).curhook.headD hookpairNull).susp

/-- `ps_enter_macro`: bump the nesting level, mark the macro start on the
top source, reset the macro buffer. -/
def ps_macro_enter (ps : Pstate) : Pstate :=
  let ps := { ps with in_macro_lv := ps.in_macro_lv + 1 }
  let ps := ps_mod_topfile ps sf_macro_mark
  ps_start_collect ps

/-- `ps_get_macro`: a body starting with `+` sets the top source's
`eat_tail` and is handed on without the `+` (an empty buffer reads its NUL
terminator, which is not `+`). -/
def ps_macro_get (ps : Pstate) : List Byte × Pstate :=
  if ps.macro_buf.headD 0 = 43 then
    (ps.macro_buf.tail, ps_mod_topfile ps (fun sf => { sf with eat_tail := true }))
  else
    (ps.macro_buf, ps)

/-- The match-probe scratch: where `ps_check` stores `fs_get_n`'s read.
Exposed for the statements about `ps_check`. -/
def ps_check_input (ps : Pstate) (m : List Byte) : List Byte :=
  (fs_get_n ps.fs m.length).1

/-- `ps_check_hook`: first-byte screen of the next input byte. -/
def ps_check_hook (ps : Pstate) (c : Option Byte) : Bool :=
  match c with
  | none => false
  | some b => tblGet (ps_topfileD ps).hook_1st_chars b

/-- `ps_check`: probe the input for `m`.  An empty read pops the top
source; a match with `erase` consumes the bytes; otherwise everything read
is pushed back. -/
def ps_check (ps : Pstate) (m : List Byte) (erase : Bool) : Bool × Pstate :=
  if (fs_get_n ps.fs m.length).1.length = 0 then
    (false, { ps with fs := fs_pop_file (fs_get_n ps.fs m.length).2 })
  else if !cstrEq (fs_get_n ps.fs m.length).1 m || !erase then
    (cstrEq (fs_get_n ps.fs m.length).1 m,
     { ps with fs := fs_put_n (fs_get_n ps.fs m.length).2 (fs_get_n ps.fs m.length).1 })
  else
    (cstrEq (fs_get_n ps.fs m.length).1 m, { ps with fs := (fs_get_n ps.fs m.length).2 })

/-- `ps_check_hookesc`. -/
def ps_check_hookesc (ps : Pstate) : Bool × Pstate :=
  if !ps_has_file ps then (false, ps)
  else ps_check ps (ps_topfileD ps).hookesc true

/-- Multi-pair loop of `ps_check_hookbeg`: first match in vector order
wins and is pushed onto curhook. -/
def ps_check_hookbeg_multi : Pstate → List Hookpair → Bool × Pstate
  | ps, [] => (false, ps)
  | ps, p :: rest =>
    match ps_check ps p.beg true with
    | (true, ps') => (true, ps_mod_topfile ps' (fun sf => ps_push_curhook sf p))
    | (false, ps') => ps_check_hookbeg_multi ps' rest

/-- `ps_check_hookbeg`. -/
def ps_check_hookbeg (ps : Pstate) : Bool × Pstate :=
  if !ps_has_file ps then (false, ps)
  else
    match (ps_topfileD ps).multi with
    | some pairs => ps_check_hookbeg_multi ps pairs
    | none =>
      match ps_check ps (ps_topfileD ps).hook.beg true with
      | (true, ps') => (true, ps_mod_topfile ps' (fun sf => ps_push_curhook sf sf.hook))
      | (false, ps') => (false, ps')

/-- `ps_check_hookend`. -/
def ps_check_hookend (ps : Pstate) : Bool × Pstate :=
  if !ps_has_file ps then (false, ps)
  else ps_check ps (ps_current_hookend ps) true

/-- `ps_check_hooksusp`. -/
def ps_check_hooksusp (ps : Pstate) : Bool × Pstate :=
  if !ps_has_file ps then (false, ps)
  else
    match ps_current_hooksusp ps with
    | some susp => ps_check ps susp true
    | none => (false, ps)

/-- `ps_check_eater`. -/
def ps_check_eater (ps : Pstate) : Bool × Pstate :=
  if !ps_has_file ps then (false, ps)
  else
    match (ps_topfileD ps).eater with
    | some e => ps_check ps e true
    | none => (false, ps)

/-- Severity words of the user-info reports. -/
inductive Severity where
  | warning
  | error
  | fatal
deriving DecidableEq

/-- Result of dispatching a macro body (or of one of the processing
helpers): a process-terminating report (`die`, non-zero exit), undefined
behavior reached (`ub`), or a normal return with the `do_break` flag. -/
inductive EvalRes where
  | die (sev : Severity) (ps : Pstate)
  | ub
  | ok (brk : Bool) (ps : Pstate)
deriving DecidableEq

/-- Result of the host's `mrb_load_string` together with the parser state
as possibly mutated through the callback surface. -/
inductive RubyRes where
  | exn (ps : Pstate)
  | val (s : Option (List Byte)) (ps : Pstate)

/-- The opaque script host: body, to_str flag, state in; result out. -/
abbrev RubyEval := List Byte → Bool → Pstate → RubyRes

/-- `ps_load_ruby_file` via the opaque host (`:source`). -/
abbrev RubyLoad := List Byte → Pstate → Pstate

/-- File opening for `:include`: filename to content, `none` when the file
cannot be opened (a fatal error in C). -/
abbrev FileOpen := List Byte → Option (List Byte)

/-- Keyword `":hookbeg"`. -/
def kwHookbeg : List Byte := [58, 104, 111, 111, 107, 98, 101, 103]

/-- Keyword `":hookend"`. -/
def kwHookend : List Byte := [58, 104, 111, 111, 107, 101, 110, 100]

/-- Keyword `":hookesc"`. -/
def kwHookesc : List Byte := [58, 104, 111, 111, 107, 101, 115, 99]

/-- Keyword `":eater"`. -/
def kwEater : List Byte := [58, 101, 97, 116, 101, 114]

/-- Keyword `":hookall"`. -/
def kwHookall : List Byte := [58, 104, 111, 111, 107, 97, 108, 108]

/-- Keyword `":hook"`. -/
def kwHook : List Byte := [58, 104, 111, 111, 107]

/-- Keyword `":include"`. -/
def kwInclude : List Byte := [58, 105, 110, 99, 108, 117, 100, 101]

/-- Keyword `":source"`. -/
def kwSource : List Byte := [58, 115, 111, 117, 114, 99, 101]

/-- Keyword `":block"`. -/
def kwBlock : List Byte := [58, 98, 108, 111, 99, 107]

/-- Keyword `":unblock"`. -/
def kwUnblock : List Byte := [58, 117, 110, 98, 108, 111, 99, 107]

/-- Keyword `":comment"`. -/
def kwComment : List Byte := [58, 99, 111, 109, 109, 101, 110, 116]

/-- Keyword `":exit"`. -/
def kwExit : List Byte := [58, 101, 120, 105, 116]

/-- Apply an `Option`-valued operation to the top source; `none` also for
a missing top (a null dereference in C). -/
def ps_sf_op (ps : Pstate) (f : Stackfile → Option Stackfile) : Option Pstate :=
  match ps.fs.file with
  | sf :: rest =>
    (f sf).map (fun sf' => { ps with fs := { ps.fs with file := sf' :: rest } })
  | [] => none

/-- `g_strsplit(arg, " ", 2)`: at most two pieces, split at the first
space; the empty string yields no pieces. -/
def split2 (s : List Byte) : List (List Byte) :=
  if s.isEmpty then []
  else
    match s.findIdx? (fun b => b = 32) with
    | some i => [s.take i, s.drop (i + 1)]
    | none => [s]

/-- Push a freshly opened include file (deep-copying the current top's
hook configuration, or the defaults on an empty stack) below the top
pointer (`fs_push_file_delayed`). -/
def fs_include_delayed (fs : Filestack) (content : List Byte) : Option Filestack :=
  match fs.file with
  | sf0 :: _ => (sf_new_inherit content sf0).map (fs_push_file_delayed fs)
  | [] => some (fs_push_file_delayed fs (sf_new_default content))

/-- `ps_eval_cmd`: dispatch a completed macro body — internal `:` commands
in source order, `.` expression output, `/` comment, `#` deferred
evaluation, otherwise script statement.  Returns `ok true` when processing
should stop (`:exit`). -/
def ps_eval_cmd (rb : RubyEval) (rbl : RubyLoad) (opf : FileOpen) (ps : Pstate) : EvalRes :=
  match ps_macro_get ps with
  | (cmd, ps) =>
    if cmd.headD 0 = 58 then
      if kwHookbeg.isPrefixOf cmd then
        match ps_sf_op ps (fun sf => sf_set_hook sf .hbeg (cmd.drop (kwHookbeg.length + 1))) with
        | some ps => .ok false ps
        | none => .ub
      else if kwHookend.isPrefixOf cmd then
        match ps_sf_op ps (fun sf => sf_set_hook sf .hend (cmd.drop (kwHookend.length + 1))) with
        | some ps => .ok false ps
        | none => .ub
      else if kwHookesc.isPrefixOf cmd then
        match ps_sf_op ps (fun sf => sf_set_hook sf .hesc (cmd.drop (kwHookesc.length + 1))) with
        | some ps => .ok false ps
        | none => .ub
      else if kwEater.isPrefixOf cmd then
        .ok false (ps_mod_topfile ps (fun sf => sf_set_eater sf (some (cmd.drop (kwEater.length + 1)))))
      else if kwHookall.isPrefixOf cmd then
        let arg := cmd.drop (kwHookall.length + 1)
        match ps_sf_op ps (fun sf =>
          (sf_set_hook sf .hbeg arg).bind (fun sf =>
            (sf_set_hook sf .hend arg).bind (fun sf =>
              sf_set_hook sf .hesc arg))) with
        | some ps => .ok false ps
        | none => .ub
      else if kwHook.isPrefixOf cmd then
        match split2 (cmd.drop (kwHook.length + 1)) with
        | [a, b] =>
          match ps_sf_op ps (fun sf =>
            (sf_set_hook sf .hbeg a).bind (fun sf => sf_set_hook sf .hend b)) with
          | some ps => .ok false ps
          | none => .ub
        | [a] =>
          match ps_sf_op ps (fun sf =>
            (sf_set_hook sf .hbeg a).bind (fun sf => sf_set_hook sf .hend a)) with
          | some ps => .ok false ps
          | none => .ub
        | _ => .ub
      else if kwInclude.isPrefixOf cmd then
        match opf (cmd.drop (kwInclude.length + 1)) with
        | none => .die .fatal ps
        | some content =>
          match fs_include_delayed ps.fs content with
          | some fs => .ok false { ps with fs := fs, post_push := true }
          | none => .die .fatal ps
      else if kwSource.isPrefixOf cmd then
        .ok false (rbl (cmd.drop (kwSource.length + 1)) ps)
      else if kwBlock.isPrefixOf cmd then
        .ok false (ps_block_output ps)
      else if kwUnblock.isPrefixOf cmd then
        .ok false (ps_unblock_output ps)
      else if kwComment.isPrefixOf cmd then
        .ok false ps
      else if kwExit.isPrefixOf cmd then
        .ok true ps
      else
        .die .error ps
    else if cmd.headD 0 = 46 then
      match rb (cmd.drop 1) true ps with
      | .exn ps => .die .error ps
      | .val s ps => .ok false (ps_out_strO ps s)
    else if cmd.headD 0 = 47 then
      .ok false ps
    else if cmd.headD 0 = 35 then
      let ps := ps_out_str ps (ps_current_hookbeg ps)
      let ps := ps_out_str ps (cmd.drop 1)
      let ps := ps_out_str ps (ps_current_hookend ps)
      .ok false ps
    else
      match rb cmd false ps with
      | .exn ps => .die .error ps
      | .val _ ps => .ok false ps

/-- Deferred `post_push` application at the end of a dispatch: restore the
input-stack top pointer to the delayed-pushed source. -/
def ps_apply_post_push (ps : Pstate) : Pstate :=
  if ps.post_push then { ps with post_push := false, fs := fs_post_push ps.fs }
  else ps

/-- Deferred `post_pop` application at the end of a dispatch: pop the top
input source. -/
def ps_apply_post_pop (ps : Pstate) : Pstate :=
  if ps.post_pop then { ps with post_pop := false, fs := fs_pop_file ps.fs }
  else ps

/-- `ps_process_hook_end_seq`: decrement the nesting level; negative is an
internal fatal error; still positive emits the consumed hookend and pops
curhook; zero dispatches the body, unmarks the macro, pops curhook and then
applies the deferred `post_push`/`post_pop` flags (push first, then pop,
both reading the flags as left by the dispatch). -/
def ps_process_hook_end_seq (rb : RubyEval) (rbl : RubyLoad) (opf : FileOpen)
    (ps : Pstate) : EvalRes :=
  if ps.in_macro_lv - 1 < 0 then .die .fatal { ps with in_macro_lv := ps.in_macro_lv - 1 }
  else if ps.in_macro_lv - 1 ≠ 0 then
    .ok false (ps_mod_topfile
      (ps_out_str { ps with in_macro_lv := ps.in_macro_lv - 1 }
        (ps_current_hookend { ps with in_macro_lv := ps.in_macro_lv - 1 }))
      ps_pop_curhook)
  else
    match ps_eval_cmd rb rbl opf { ps with in_macro_lv := ps.in_macro_lv - 1 } with
    | .die sev p => .die sev p
    | .ub => .ub
    | .ok brk ps =>
      .ok brk (ps_apply_post_pop (ps_apply_post_push
        (ps_mod_topfile (ps_mod_topfile ps sf_macro_unmark) ps_pop_curhook)))

/-- `ps_process_non_hook_seq`: in a macro collect the byte (EOF is a
process-terminating error report); outside, EOF breaks the loop and any
byte goes to the output. -/
def ps_process_non_hook_seq (ps : Pstate) (c : Option Byte) : EvalRes :=
  if ps.in_macro_lv ≠ 0 then
    match c with
    | none => .die .error ps
    | some b => .ok false (ps_collect ps b)
  else
    match c with
    | none => .ok true ps
    | some b => .ok false (ps_out ps b)

/-- Outcome of one iteration of the `ps_process_file` main loop. -/
inductive StepRes where
  | cont (ps : Pstate)
  | stop (ps : Pstate)
  | die (sev : Severity) (ps : Pstate)
  | ub
deriving DecidableEq

/-- Map a helper result to a loop outcome (`do_break` breaks the loop). -/
def stepOfEval : EvalRes → StepRes
  | .die s p => .die s p
  | .ub => .ub
  | .ok brk ps => if brk then .stop ps else .cont ps

/-- Does the next byte equal the configured eater's first byte
(`ps_topfile(ps)->eater && ps_topfile(ps)->eater[0] == c`)? -/
def eaterHeadIs (ps : Pstate) (c : Byte) : Bool :=
  match (ps_topfileD ps).eater with
  | some e => strFirst e == c
  | none => false

/-- Escape handling inside a macro (main-loop branch): EOF is a
process-terminating error; whitespace with `esc == hookend` is a hook-end;
an eater match is swallowed; anything else is collected literally. -/
def ps_step_esc_in (rb : RubyEval) (rbl : RubyLoad) (opf : FileOpen)
    (ps : Pstate) : StepRes :=
  match ps_in ps with
  | (none, ps) => .die .error ps
  | (some c2, ps) =>
    if (c2 == 32 || c2 == 10) && (ps_topfileD ps).hook_esc_eq_end then
      stepOfEval (ps_process_hook_end_seq rb rbl opf ps)
    else if eaterHeadIs ps c2 then
      let ps := ps_fs_put ps c2
      match ps_check_eater ps with
      | (true, ps) => .cont (ps_in ps).2
      | (false, ps) => .cont (ps_collect ps c2)
    else .cont (ps_collect ps c2)

/-- Escape handling outside a macro (main-loop branch): EOF ends the loop;
an eater match is swallowed; whitespace is eaten; with `esc == hookbeg` a
doubled one-byte esc is literal and anything else starts a macro; otherwise
the byte is output literally. -/
def ps_step_esc_out (ps : Pstate) : StepRes :=
  match ps_in ps with
  | (none, ps) => .stop ps
  | (some c2, ps) =>
    if eaterHeadIs ps c2 then
      let ps := ps_fs_put ps c2
      match ps_check_eater ps with
      | (true, ps) => .cont (ps_in ps).2
      | (false, ps) => .cont (ps_out ps c2)
    else if c2 == 10 then .cont ps
    else if c2 == 32 then .cont ps
    else if (ps_topfileD ps).hook_esc_eq_beg then
      if ((ps_topfileD ps).hookesc.getD 1 0 == 0) && (c2 == strFirst (ps_topfileD ps).hookesc) then
        .cont (ps_out ps c2)
      else
        let ps := ps_fs_put ps c2
        let ps := ps_mod_topfile ps (fun sf => ps_push_curhook sf sf.hook)
        .cont (ps_macro_enter ps)
    else .cont (ps_out ps c2)

/-- Hookbeg stage of the probe chain: a hookbeg match either deepens the
nesting (emitting the matched beg bytes to the output) or enters a macro;
a miss falls through to re-reading the byte as a non-hook character. -/
def ps_probe_beg_stage (rb : RubyEval) (rbl : RubyLoad) (opf : FileOpen)
    (ps : Pstate) : StepRes :=
  match ps_check_hookbeg ps with
  | (true, ps) =>
    if ps.in_macro_lv ≠ 0 then
      .cont (ps_out_str { ps with in_macro_lv := ps.in_macro_lv + 1 }
        (ps_current_hookbeg { ps with in_macro_lv := ps.in_macro_lv + 1 }))
    else .cont (ps_macro_enter ps)
  | (false, ps) =>
    match ps_in ps with
    | (c', ps) => stepOfEval (ps_process_non_hook_seq ps c')

/-- Hookend stage of the probe chain (in-macro only): a hookend match at
suspension level zero runs the hook-end sequence; at a positive level it
decrements the level and collects the end bytes into the macro body; a
miss falls through to the hookbeg stage. -/
def ps_probe_end_stage (rb : RubyEval) (rbl : RubyLoad) (opf : FileOpen)
    (ps : Pstate) : StepRes :=
  match (if ps.in_macro_lv ≠ 0 then ps_check_hookend ps else (false, ps)) with
  | (true, ps) =>
    if ps.suspension = 0 then
      stepOfEval (ps_process_hook_end_seq rb rbl opf ps)
    else
      .cont (ps_collect_str { ps with suspension := ps.suspension - 1 }
        (ps_current_hookend { ps with suspension := ps.suspension - 1 }))
  | (false, ps) => ps_probe_beg_stage rb rbl opf ps

/-- Suspension stage of the probe chain (in-macro only): a suspension
match increments the suspension level and collects the susp bytes into the
macro body; a miss falls through to the hookend stage. -/
def ps_probe_susp_stage (rb : RubyEval) (rbl : RubyLoad) (opf : FileOpen)
    (ps : Pstate) : StepRes :=
  match (if ps.in_macro_lv ≠ 0 then ps_check_hooksusp ps else (false, ps)) with
  | (true, ps) =>
    .cont (ps_collect_str { ps with suspension := ps.suspension + 1 }
      ((ps_current_hooksusp { ps with suspension := ps.suspension + 1 }).getD []))
  | (false, ps) => ps_probe_end_stage rb rbl opf ps

/-- Probe chain after a first-byte hit and put-back: esc always first, then
(in-macro) suspension, then (in-macro) hookend, then hookbeg, then the
fallthrough that re-reads the byte as a non-hook char. -/
def ps_step_probe (rb : RubyEval) (rbl : RubyLoad) (opf : FileOpen)
    (ps : Pstate) : StepRes :=
  match ps_check_hookesc ps with
  | (true, ps) =>
    if ps.in_macro_lv ≠ 0 then ps_step_esc_in rb rbl opf ps
    else ps_step_esc_out ps
  | (false, ps) => ps_probe_susp_stage rb rbl opf ps

/-- One iteration of the `ps_process_file` main loop: read one byte via
`ps_in`; on a first-byte hit push it back and run the probe chain;
otherwise (including EOF, on which `ps_check_hook` is false) take the
non-hook path. -/
def ps_step (rb : RubyEval) (rbl : RubyLoad) (opf : FileOpen) (ps : Pstate) : StepRes :=
  match ps_in ps with
  | (none, ps) => stepOfEval (ps_process_non_hook_seq ps none)
  | (some b, ps) =>
    if ps_check_hook ps (some b) then
      ps_step_probe rb rbl opf (ps_fs_put ps b)
    else
      stepOfEval (ps_process_non_hook_seq ps (some b))

/-- Iterate the main loop up to `n` times, stopping early on a break, a
process-terminating report, or undefined behavior. -/
def ps_steps (rb : RubyEval) (rbl : RubyLoad) (opf : FileOpen) :
    Nat → Pstate → StepRes
  | 0, ps => .cont ps
  | Nat.succ n, ps =>
    match ps_step rb rbl opf ps with
    | .cont ps' => ps_steps rb rbl opf n ps'
    | r => r

/-- Trivial host: every evaluation returns nil and leaves the state
alone. -/
def rbNone : RubyEval := fun _ _ ps => .val none ps

/-- Trivial `:source` loader. -/
def rblId : RubyLoad := fun _ ps => ps

/-- File system with no openable files. -/
def opfNone : FileOpen := fun _ => none

/-- `n` copies of a token, concatenated. -/
def rep (n : Nat) (s : List Byte) : List Byte := (List.replicate n s).flatten

/-- Effect of writing a byte string on one sink: dropped when blocked,
otherwise appended with the newline count added to the line counter. -/
def ofWrite (ofl : Outfile) (s : List Byte) : Outfile :=
  if ofl.blocked then ofl
  else { ofl with outBytes := ofl.outBytes ++ s, lineno := ofl.lineno + (s.count 10 : Int) }

/-- Side conditions on the top source under which the suspension/hook-end
probes of the main loop resolve by their first bytes: the current curhook
pair carries `susp` and ends with `hend`; the first bytes of `susp`,
`hend` and the escape are pairwise distinct and non-NUL; both appear in
the first-byte table; the escape is non-empty; no pending `eat_tail`. -/
def c3Good (sf : Stackfile) (susp hend : List Byte) : Prop :=
  sf.eat_tail = false ∧
  sf.curhook ≠ [] ∧
  (sf.curhook.headD hookpairNull).susp = some susp ∧
  (sf.curhook.headD hookpairNull).hend = hend ∧
  susp ≠ [] ∧ hend ≠ [] ∧
  strFirst susp ≠ 0 ∧ strFirst hend ≠ 0 ∧
  strFirst susp ≠ strFirst hend ∧
  strFirst sf.hookesc ≠ strFirst susp ∧
  strFirst sf.hookesc ≠ strFirst hend ∧
  tblGet sf.hook_1st_chars (strFirst susp) = true ∧
  tblGet sf.hook_1st_chars (strFirst hend) = true ∧
  sf.hookesc ≠ []

instance (sf : Stackfile) (susp hend : List Byte) : Decidable (c3Good sf susp hend) := by
  unfold c3Good; infer_instance

/-- A standard-output sink in its initial state. -/
def ofStd : Outfile := { outBytes := [], lineno := 0, blocked := false }

/-- Concrete run for C1: move the escape to `"q1"` while in single mode. -/
def c1_sfA : Stackfile := (sf_set_hook (sf_new_default []) .hesc [113, 49]).getD sfNull

/-- Concrete run for C1: first multi pair `("qq", "zz")` — its first byte
`q` (113) enters the table. -/
def c1_sfB : Stackfile := (sf_multi_hook c1_sfA [113, 113] [122, 122] none).getD sfNull

/-- Concrete run for C1: second multi pair `("mm", "nn")`. -/
def c1_sfC : Stackfile := (sf_multi_hook c1_sfB [109, 109] [110, 110] none).getD sfNull

/-- Concrete run for C1: moving the escape to `"xx"` clears the old escape
first byte `q` (113) from the table although pair `("qq", "zz")` still
needs it; only the latest pair and the new escape are re-added. -/
def c1_sfD : Stackfile := (sf_set_hook c1_sfC .hesc [120, 120]).getD sfNull

/-- Source with a pending `eat_tail` and two unread bytes, for C4. -/
def c4_sf : Stackfile := { sf_new_default [98, 99] with eat_tail := true }

/-- Parser state on top of `c4_sf`. -/
def c4_ps : Pstate :=
  { fs := ⟨[], [c4_sf]⟩, macro_buf := [], in_macro_lv := 0, suspension := 0,
    output := [ofStd], flush := false, post_push := false, post_pop := false }

/-- Source with a pending `eat_tail` and stream `"ab"`, for C5. -/
def c5_sf : Stackfile := { sf_new_default [97, 98] with eat_tail := true }

/-- Source with a pending `eat_tail` and stream `"b"`, for C6. -/
def c6_sf : Stackfile := { sf_new_default [98] with eat_tail := true }

/-- Input stack on top of `c6_sf`. -/
def c6_fs : Filestack := ⟨[], [c6_sf]⟩

/-- Exhausted source under `in_macro = 1`, for C8. -/
def c8_sf : Stackfile := sf_new_default []

/-- Parser state hitting end-of-source inside a macro, for C8. -/
def c8_ps : Pstate :=
  { fs := ⟨[], [c8_sf]⟩, macro_buf := [], in_macro_lv := 1, suspension := 0,
    output := [ofStd], flush := false, post_push := false, post_pop := false }

/-- Default hook pair, used by the C2 witness state. -/
def c2_pair : Hookpair := ⟨[45, 60], [62, 45], none⟩

/-- Source two macro levels deep, for the C2 witness. -/
def c2_sf : Stackfile := { sf_new_default [] with curhook := [c2_pair, c2_pair] }

/-- Parser state at nesting depth 2, for the C2 witness. -/
def c2_ps : Pstate :=
  { fs := ⟨[], [c2_sf]⟩, macro_buf := [], in_macro_lv := 2, suspension := 0,
    output := [ofStd], flush := false, post_push := false, post_pop := false }

/-- Hook pair with suspension `"!!"`, for the C3 witness. -/
def c3_pair : Hookpair := ⟨[45, 60], [62, 45], some [33, 33]⟩

/-- Source inside a macro whose remaining input is one suspension token
followed by two hook-end tokens, for the C3 witness. -/
def c3_sf : Stackfile :=
  { sf_new_default ([33, 33] ++ [62, 45] ++ [62, 45]) with
    curhook := [c3_pair],
    macro_on := true,
    hook_1st_chars := [33, 62, 45, 92] }

/-- Parser state for the C3 witness (body so far: a `/` comment). -/
def c3_ps : Pstate :=
  { fs := ⟨[], [c3_sf]⟩, macro_buf := [47], in_macro_lv := 1, suspension := 0,
    output := [ofStd], flush := false, post_push := false, post_pop := false }

/-- Parser state whose macro body starts with `+`, for the C7 witness. -/
def c7_ps : Pstate :=
  { fs := ⟨[], [sf_new_default [32, 89]]⟩, macro_buf := [43, 46], in_macro_lv := 1,
    suspension := 0, output := [ofStd], flush := false, post_push := false,
    post_pop := false }

/-- Parser state with one unblocked sink, for the C9 witness. -/
def c9_ps : Pstate :=
  { fs := ⟨[], []⟩, macro_buf := [], in_macro_lv := 0, suspension := 0,
    output := [ofStd], flush := false, post_push := false, post_pop := false }

/-- Parser state whose top source has `"-<a"` pending and no `eat_tail`,
for the C4 witness. -/
def c4w_ps : Pstate :=
  { fs := ⟨[], [sf_new_default [45, 60, 97]]⟩, macro_buf := [], in_macro_lv := 0,
    suspension := 0, output := [ofStd], flush := false, post_push := false,
    post_pop := false }

/-- Input stack with one fresh default source, for the C6 witness. -/
def c6w_fs : Filestack := ⟨[], [sf_new_default [99]]⟩

/-! Basic lemmas about the byte-level and stack-level operations. -/

theorem sfCfgEq_refl (sf : Stackfile) : sfCfgEq sf sf := by
  unfold sfCfgEq; exact ⟨rfl, rfl, rfl, rfl, rfl, rfl, rfl, rfl, rfl⟩

theorem sfCfgEq_trans {a b c : Stackfile} (h1 : sfCfgEq a b) (h2 : sfCfgEq b c) :
    sfCfgEq a c := by
  unfold sfCfgEq at h1 h2 ⊢
  obtain ⟨x1, x2, x3, x4, x5, x6, x7, x8, x9⟩ := h1
  obtain ⟨y1, y2, y3, y4, y5, y6, y7, y8, y9⟩ := h2
  exact ⟨x1.trans y1, x2.trans y2, x3.trans y3, x4.trans y4, x5.trans y5,
         x6.trans y6, x7.trans y7, x8.trans y8, x9.trans y9⟩

theorem sfCfgEq_eat {a b : Stackfile} (h : sfCfgEq a b) : a.eat_tail = b.eat_tail :=
  h.2.2.2.2.2.2.2.2

theorem sfCfgEq_curhook {a b : Stackfile} (h : sfCfgEq a b) : a.curhook = b.curhook :=
  h.2.2.2.2.1

theorem sfCfgEq_hookesc {a b : Stackfile} (h : sfCfgEq a b) : a.hookesc = b.hookesc :=
  h.2.1

theorem sfCfgEq_tbl {a b : Stackfile} (h : sfCfgEq a b) :
    a.hook_1st_chars = b.hook_1st_chars :=
  h.2.2.2.2.2.2.2.1

theorem sf_pos_adv_remaining (sf : Stackfile) (c : Byte) :
    sfRemaining (sf_pos_adv sf c) = sfRemaining sf := by
  unfold sf_pos_adv sfRemaining; split <;> rfl

theorem sf_pos_adv_cfgEq (sf : Stackfile) (c : Byte) : sfCfgEq (sf_pos_adv sf c) sf := by
  unfold sf_pos_adv sfCfgEq; split <;> exact ⟨rfl, rfl, rfl, rfl, rfl, rfl, rfl, rfl, rfl⟩

theorem sf_get1_eat (sf : Stackfile) : (sf_get1 sf).2.eat_tail = sf.eat_tail := by
  unfold sf_get1
  cases hb : sf.buf with
  | cons c rest => exact (sf_pos_adv_cfgEq _ c).2.2.2.2.2.2.2.2
  | nil =>
    cases hs : sf.stream with
    | cons c rest => exact (sf_pos_adv_cfgEq _ c).2.2.2.2.2.2.2.2
    | nil => rfl

theorem sf_get1_nil {sf : Stackfile} (h : sfRemaining sf = []) : sf_get1 sf = (none, sf) := by
  unfold sfRemaining at h
  rw [List.append_eq_nil] at h
  unfold sf_get1
  rw [h.1, h.2]

theorem sf_get1_cons {sf : Stackfile} {c : Byte} {r : List Byte}
    (h : sfRemaining sf = c :: r) :
    (sf_get1 sf).1 = some c ∧ sfRemaining (sf_get1 sf).2 = r ∧
      sfCfgEq (sf_get1 sf).2 sf := by
  unfold sfRemaining at h
  unfold sf_get1
  cases hb : sf.buf with
  | cons b bs =>
    rw [hb] at h
    simp only [List.cons_append, List.cons.injEq] at h
    obtain ⟨hbc, hrest⟩ := h
    subst hbc
    refine ⟨rfl, ?_, ?_⟩
    · rw [sf_pos_adv_remaining]
      unfold sfRemaining
      simpa using hrest
    · exact sfCfgEq_trans (sf_pos_adv_cfgEq _ _) (by
        unfold sfCfgEq
        exact ⟨rfl, rfl, rfl, rfl, rfl, rfl, rfl, rfl, rfl⟩)
  | nil =>
    rw [hb] at h
    simp only [List.nil_append] at h
    cases hs : sf.stream with
    | nil => rw [hs] at h; exact absurd h (by simp)
    | cons s ss =>
      rw [hs] at h
      simp only [List.cons.injEq] at h
      obtain ⟨hbc, hrest⟩ := h
      subst hbc
      refine ⟨rfl, ?_, ?_⟩
      · rw [sf_pos_adv_remaining]
        unfold sfRemaining
        simpa using hrest
      · exact sfCfgEq_trans (sf_pos_adv_cfgEq _ _) (by
          unfold sfCfgEq
          exact ⟨rfl, rfl, rfl, rfl, rfl, rfl, rfl, rfl, rfl⟩)

theorem sf_get_noeat {sf : Stackfile} (h : sf.eat_tail = false) : sf_get sf = sf_get1 sf := by
  unfold sf_get
  rw [sf_get1_eat, h]
  rfl

theorem sf_put_remaining (sf : Stackfile) (c : Byte) :
    sfRemaining (sf_put sf c) = c :: sfRemaining sf := by
  unfold sf_put sfRemaining
  split <;> rfl

theorem sf_put_cfgEq (sf : Stackfile) (c : Byte) : sfCfgEq (sf_put sf c) sf := by
  unfold sf_put sfCfgEq
  split <;> exact ⟨rfl, rfl, rfl, rfl, rfl, rfl, rfl, rfl, rfl⟩

theorem fs_get_nil {hid rest : List Stackfile} {sf : Stackfile}
    (he : sf.eat_tail = false) (h : sfRemaining sf = []) :
    fs_get ⟨hid, sf :: rest⟩ = (none, ⟨hid, sf :: rest⟩) := by
  show ((sf_get sf).1, ({ hidden := hid, file := (sf_get sf).2 :: rest } : Filestack)) = _
  rw [sf_get_noeat he, sf_get1_nil h]

theorem fs_get_cons {hid rest : List Stackfile} {sf : Stackfile} {c : Byte} {r : List Byte}
    (he : sf.eat_tail = false) (h : sfRemaining sf = c :: r) :
    ∃ sf', fs_get ⟨hid, sf :: rest⟩ = (some c, ⟨hid, sf' :: rest⟩) ∧
      sfRemaining sf' = r ∧ sfCfgEq sf' sf := by
  obtain ⟨h1, h2, h3⟩ := sf_get1_cons h
  refine ⟨(sf_get1 sf).2, ?_, h2, h3⟩
  show ((sf_get sf).1, ({ hidden := hid, file := (sf_get sf).2 :: rest } : Filestack)) = _
  rw [sf_get_noeat he, h1]

theorem fs_get_n_spec (n : Nat) :
    ∀ (sf : Stackfile) (hid rest : List Stackfile), sf.eat_tail = false →
    ∃ sf', fs_get_n ⟨hid, sf :: rest⟩ n = ((sfRemaining sf).take n, ⟨hid, sf' :: rest⟩) ∧
      sfRemaining sf' = (sfRemaining sf).drop n ∧ sfCfgEq sf' sf := by
  induction n with
  | zero => exact fun sf hid rest _ => ⟨sf, rfl, by simp, sfCfgEq_refl sf⟩
  | succ m ih =>
    intro sf hid rest he
    cases hr : sfRemaining sf with
    | nil =>
      refine ⟨sf, ?_, by simp [hr], sfCfgEq_refl sf⟩
      show (match fs_get ⟨hid, sf :: rest⟩ with
            | (some c, fs') => (c :: (fs_get_n fs' m).1, (fs_get_n fs' m).2)
            | (none, fs') => ([], fs')) = _
      rw [fs_get_nil he hr]
      rfl
    | cons c r =>
      obtain ⟨sf1, hget, hrem1, hcfg1⟩ := @fs_get_cons hid rest sf c r he hr
      have he1 : sf1.eat_tail = false := by rw [sfCfgEq_eat hcfg1]; exact he
      obtain ⟨sf', hgn, hrem', hcfg'⟩ := ih sf1 hid rest he1
      refine ⟨sf', ?_, ?_, sfCfgEq_trans hcfg' hcfg1⟩
      · show (match fs_get ⟨hid, sf :: rest⟩ with
              | (some c, fs') => (c :: (fs_get_n fs' m).1, (fs_get_n fs' m).2)
              | (none, fs') => ([], fs')) = _
        rw [hget]
        show (c :: (fs_get_n ⟨hid, sf1 :: rest⟩ m).1, (fs_get_n ⟨hid, sf1 :: rest⟩ m).2) = _
        rw [hgn, hrem1]
        rfl
      · rw [hrem', hrem1]
        rfl

theorem fs_put_n_spec (s : List Byte) :
    ∀ (sf : Stackfile) (hid rest : List Stackfile),
    ∃ sf', fs_put_n ⟨hid, sf :: rest⟩ s = ⟨hid, sf' :: rest⟩ ∧
      sfRemaining sf' = s ++ sfRemaining sf ∧ sfCfgEq sf' sf := by
  induction s with
  | nil => exact fun sf hid rest => ⟨sf, rfl, by simp, sfCfgEq_refl sf⟩
  | cons c cs ih =>
    intro sf hid rest
    obtain ⟨sf1, hpn, hrem, hcfg⟩ := ih sf hid rest
    refine ⟨sf_put sf1 c, ?_, ?_, sfCfgEq_trans (sf_put_cfgEq sf1 c) hcfg⟩
    · show fs_put (fs_put_n ⟨hid, sf :: rest⟩ cs) c = _
      rw [hpn]
      rfl
    · rw [sf_put_remaining, hrem]
      rfl

theorem cstrEq_self (m : List Byte) : cstrEq m m = true := by
  simp [cstrEq]

theorem cstrEq_ne_head {a m : List Byte} {a0 m0 : Byte}
    (ha : a.head? = some a0) (hm : m.head? = some m0) (h0 : a0 ≠ 0) (hne : a0 ≠ m0) :
    cstrEq a m = false := by
  cases a with
  | nil => simp at ha
  | cons x xs =>
    cases m with
    | nil => simp at hm
    | cons y ys =>
      simp only [List.head?_cons, Option.some.injEq] at ha hm
      rw [← ha] at h0 hne
      rw [← hm] at hne
      by_cases hy : y = 0
      · subst hy
        simp [cstrEq, cstrTrunc, h0]
      · simp [cstrEq, cstrTrunc, h0, hy, hne]

/-- Probe against the exact pending input with `erase`: consumed, match. -/
theorem ps_check_match_erase {ps : Pstate} {hid rest : List Stackfile} {sf : Stackfile}
    {m r : List Byte}
    (hfs : ps.fs = ⟨hid, sf :: rest⟩) (he : sf.eat_tail = false)
    (hm : m ≠ []) (hr : sfRemaining sf = m ++ r) :
    ∃ sf', ps_check ps m true = (true, { ps with fs := ⟨hid, sf' :: rest⟩ }) ∧
      sfRemaining sf' = r ∧ sfCfgEq sf' sf := by
  obtain ⟨sf', hgn, hrem, hcfg⟩ := fs_get_n_spec m.length sf hid rest he
  rw [hr, List.take_left] at hgn
  rw [hr, List.drop_left] at hrem
  refine ⟨sf', ?_, hrem, hcfg⟩
  unfold ps_check
  rw [hfs, hgn]
  have hlen : ¬(m.length = 0) := by simpa using hm
  simp [hlen, cstrEq_self]

/-- Probe whose first byte already disagrees with the pending input: no
match, everything read is pushed back, the byte sequence is unchanged. -/
theorem ps_check_no_match {ps : Pstate} {hid rest : List Stackfile} {sf : Stackfile}
    {m : List Byte} {r0 m0 : Byte} {erase : Bool}
    (hfs : ps.fs = ⟨hid, sf :: rest⟩) (he : sf.eat_tail = false)
    (hr0 : (sfRemaining sf).head? = some r0) (hm0 : m.head? = some m0)
    (h00 : r0 ≠ 0) (hne : r0 ≠ m0) :
    ∃ sf', ps_check ps m erase = (false, { ps with fs := ⟨hid, sf' :: rest⟩ }) ∧
      sfRemaining sf' = sfRemaining sf ∧ sfCfgEq sf' sf := by
  obtain ⟨sf1, hgn, hrem1, hcfg1⟩ := fs_get_n_spec m.length sf hid rest he
  have hin : ((sfRemaining sf).take m.length).head? = some r0 := by
    cases hrr : sfRemaining sf with
    | nil => rw [hrr] at hr0; simp at hr0
    | cons c cs =>
      rw [hrr] at hr0
      simp only [List.head?_cons, Option.some.injEq] at hr0
      subst hr0
      cases hmm : m with
      | nil => rw [hmm] at hm0; simp at hm0
      | cons b bs => simp
  have hcs : cstrEq ((sfRemaining sf).take m.length) m = false :=
    cstrEq_ne_head hin hm0 h00 hne
  have hlen : ¬(((sfRemaining sf).take m.length).length = 0) := by
    intro h
    rw [List.length_eq_zero] at h
    rw [h] at hin
    simp at hin
  obtain ⟨sf2, hpn, hrem2, hcfg2⟩ :=
    fs_put_n_spec ((sfRemaining sf).take m.length) sf1 hid rest
  have hmne : m ≠ [] := by intro hx; rw [hx] at hm0; simp at hm0
  have hrne : sfRemaining sf ≠ [] := by intro hx; rw [hx] at hr0; simp at hr0
  refine ⟨sf2, ?_, ?_, sfCfgEq_trans hcfg2 hcfg1⟩
  · unfold ps_check
    rw [hfs, hgn]
    simp [hcs, hmne, hrne, hpn]
  · rw [hrem2, hrem1, List.take_append_drop]

/-- Probe at immediate end-of-source: the top source is popped and the
probe reports no match. -/
theorem ps_check_at_eof {ps : Pstate} {hid rest : List Stackfile} {sf : Stackfile}
    {m : List Byte} {erase : Bool}
    (hfs : ps.fs = ⟨hid, sf :: rest⟩) (he : sf.eat_tail = false)
    (hr : sfRemaining sf = []) :
    ps_check ps m erase = (false, { ps with fs := ⟨hid, rest⟩ }) := by
  obtain ⟨sf', hgn, hrem, hcfg⟩ := fs_get_n_spec m.length sf hid rest he
  rw [hr, List.take_nil] at hgn
  unfold ps_check
  rw [hfs, hgn]
  simp [fs_pop_file]

/-! C9 — blocked-sink frame property. -/

/-- C9: while the top sink is blocked, `ps_out` leaves the whole parser
state (in particular the sink's stream and line counter) unchanged; when
it is unblocked the byte is appended verbatim and the line counter is
incremented exactly on a newline; `ps_block_output` / `ps_unblock_output`
change only the top sink's `blocked` flag. -/
theorem C9_blocked_sink (ps : Pstate) (ofl : Outfile) (rest : List Outfile) (c : Byte)
    (h : ps.output = ofl :: rest) :
    (ofl.blocked = true → ps_out ps c = ps) ∧
    (ofl.blocked = false →
      ps_out ps c =
        { ps with output :=
            { ofl with outBytes := ofl.outBytes ++ [c],
                       lineno := ofl.lineno + (if c = 10 then 1 else 0) } :: rest }) ∧
    ps_block_output ps = { ps with output := { ofl with blocked := true } :: rest } ∧
    ps_unblock_output ps = { ps with output := { ofl with blocked := false } :: rest } := by
  refine ⟨?_, ?_, ?_, ?_⟩
  · intro hb
    unfold ps_out
    rw [h]
    show (if ofl.blocked = true then ps else _) = ps
    rw [if_pos hb]
  · intro hb
    unfold ps_out
    rw [h]
    show (if ofl.blocked = true then ps else _) = _
    rw [if_neg (by rw [hb]; simp)]
    by_cases hc : c = 10
    · simp [hc]
    · simp [hc]
  · unfold ps_block_output
    rw [h]
  · unfold ps_unblock_output
    rw [h]

/-- C9 witness at a concrete unblocked sink. -/
theorem C9_blocked_sink_witness :
    c9_ps.output = ofStd :: [] ∧
    ps_out c9_ps 97 =
      { c9_ps with output :=
          { ofStd with outBytes := ofStd.outBytes ++ [97],
                       lineno := ofStd.lineno + (if (97 : Byte) = 10 then 1 else 0) } :: [] } :=
  ⟨rfl, ((C9_blocked_sink c9_ps ofStd [] 97 rfl).2.1) rfl⟩

/-! C10 — reads from an empty input stack are total. -/

theorem fs_get_one_aux_none_iff (l : List Stackfile) :
    (fs_get_one_aux l).1 = none ↔ (fs_get_one_aux l).2 = [] := by
  induction l with
  | nil => simp [fs_get_one_aux]
  | cons sf rest ih =>
    unfold fs_get_one_aux
    cases hg : sf_get sf with
    | mk r sf' =>
      cases r with
      | none => simpa using ih
      | some c => simp

/-- C10: with an empty input stack, `fs_get` and `fs_get_one` both return
end-of-source and leave the stack unchanged (no null-top branch is
reached); and `fs_get_one` — whose pop loop removes one source per
iteration and is total — returns end-of-source exactly when the stack has
emptied. -/
theorem C10_empty_stack_reads (fs : Filestack) :
    (fs.file = [] → fs_get fs = (none, fs) ∧ fs_get_one fs = (none, fs)) ∧
    ((fs_get_one fs).1 = none ↔ (fs_get_one fs).2.file = []) := by
  constructor
  · intro h
    obtain ⟨hid, file⟩ := fs
    simp only at h
    subst h
    constructor
    · rfl
    · rfl
  · have := fs_get_one_aux_none_iff fs.file
    unfold fs_get_one
    simpa using this

/-- C10 witness at the empty stack. -/
theorem C10_empty_stack_reads_witness :
    fs_get (⟨[], []⟩ : Filestack) = (none, ⟨[], []⟩) ∧
    fs_get_one (⟨[], []⟩ : Filestack) = (none, ⟨[], []⟩) :=
  (C10_empty_stack_reads ⟨[], []⟩).1 rfl

/-! C5 — position round-trip of `sf_get` followed by `sf_put`. -/

/-- C5 counterexample: with `eat_tail` set, `sf_get` discards one byte
before returning the next one, so putting the returned byte back does not
restore the column: the claim fails at `c5_sf` (stream `"ab"`,
`eat_tail = true`). -/
theorem C5_counterexample :
    (sf_get c5_sf).1 = some 98 ∧ c5_sf.column = 0 ∧
    (sf_put (sf_get c5_sf).2 98).column = 1 ∧
    ¬((sf_put (sf_get c5_sf).2 98).lineno = c5_sf.lineno ∧
      (sf_put (sf_get c5_sf).2 98).column = c5_sf.column) := by
  decide

/-- C5 amended: for every source whose `eat_tail` flag is clear, an
`sf_get` returning byte `c` immediately followed by `sf_put` of `c`
restores `lineno` and `column` to their pre-read values (any byte,
including the newline). -/
theorem C5_position_roundtrip (sf : Stackfile) (c : Byte) (sf1 : Stackfile)
    (he : sf.eat_tail = false) (h : sf_get sf = (some c, sf1)) :
    (sf_put sf1 c).lineno = sf.lineno ∧ (sf_put sf1 c).column = sf.column := by
  rw [sf_get_noeat he] at h
  unfold sf_get1 at h
  cases hb : sf.buf with
  | cons b bs =>
    rw [hb] at h
    simp only [Prod.mk.injEq, Option.some.injEq] at h
    obtain ⟨hbc, hsf1⟩ := h
    subst hsf1
    rw [hbc]
    unfold sf_pos_adv sf_put
    by_cases hc : c = 10
    · rw [if_pos hc, if_pos hc]
      exact ⟨by simp, by simp⟩
    · rw [if_neg hc, if_neg hc]
      exact ⟨by simp, by simp⟩
  | nil =>
    rw [hb] at h
    cases hs : sf.stream with
    | nil => rw [hs] at h; simp at h
    | cons b bs =>
      rw [hs] at h
      simp only [Prod.mk.injEq, Option.some.injEq] at h
      obtain ⟨hbc, hsf1⟩ := h
      subst hsf1
      rw [hbc]
      unfold sf_pos_adv sf_put
      by_cases hc : c = 10
      · rw [if_pos hc, if_pos hc]
        exact ⟨by simp, by simp⟩
      · rw [if_neg hc, if_neg hc]
        exact ⟨by simp, by simp⟩

/-- C5 witness: round-trip at a fresh one-byte source. -/
theorem C5_position_roundtrip_witness :
    (sf_put (sf_get (sf_new_default [10])).2 10).lineno = (sf_new_default [10]).lineno ∧
    (sf_put (sf_get (sf_new_default [10])).2 10).column = (sf_new_default [10]).column :=
  C5_position_roundtrip (sf_new_default [10]) 10 (sf_get (sf_new_default [10])).2
    (by decide) (by decide)

/-! C7 — `+`-prefixed macro bodies eat the byte after the macro. -/

/-- C7: when the collected body starts with `+`, `ps_get_macro` sets the
top source's `eat_tail` and hands the dispatcher the body without the
leading `+`; the next `sf_get` on a source with `eat_tail` set clears the
flag and discards the byte it reads first — re-reading once — unless the
source is already at end-of-source. -/
theorem C7_plus_swallow (ps : Pstate) (sf : Stackfile) (hid others : List Stackfile)
    (body : List Byte)
    (hfs : ps.fs = ⟨hid, sf :: others⟩) (hb : ps.macro_buf = 43 :: body) :
    ps_macro_get ps =
      (body, { ps with fs := ⟨hid, { sf with eat_tail := true } :: others⟩ }) ∧
    (∀ (sf' : Stackfile) (c : Byte) (sfA : Stackfile),
      sf'.eat_tail = true →
      (sf_get1 sf' = (some c, sfA) → sf_get sf' = sf_get1 { sfA with eat_tail := false }) ∧
      (sf_get1 sf' = (none, sfA) → sf_get sf' = (none, { sfA with eat_tail := false }))) := by
  constructor
  · unfold ps_macro_get
    rw [if_pos (show ps.macro_buf.headD 0 = 43 by rw [hb]; rfl)]
    unfold ps_mod_topfile
    rw [hfs, hb]
    rfl
  · intro sf' c sfA het
    have he2 : (sf_get1 sf').2.eat_tail = true := by rw [sf_get1_eat]; exact het
    constructor
    · intro h
      unfold sf_get
      rw [he2, if_pos rfl, h]
    · intro h
      unfold sf_get
      rw [he2, if_pos rfl, h]

/-- C7 witness: macro body `"+."` on a source about to read `" Y"`. -/
theorem C7_plus_swallow_witness :
    ps_macro_get c7_ps =
      ([46], { c7_ps with
        fs := ⟨[], [{ sf_new_default [32, 89] with eat_tail := true }]⟩ }) :=
  (C7_plus_swallow c7_ps (sf_new_default [32, 89]) [] [] [46] rfl rfl).1

/-! More facts about C-string comparison, for the general probe claim. -/

theorem cstrTrunc_eq_self {a : List Byte} (h : ∀ x ∈ a, x ≠ 0) : cstrTrunc a = a := by
  induction a with
  | nil => rfl
  | cons x xs ih =>
    have hx : x ≠ 0 := h x (by simp)
    unfold cstrTrunc at ih ⊢
    simp only [List.takeWhile_cons]
    rw [if_pos (by simpa using hx)]
    rw [ih (fun y hy => h y (by simp [hy]))]

theorem cstrEq_iff_of_nulfree {a m : List Byte} (hm : ∀ x ∈ m, x ≠ 0)
    (hlen : a.length ≤ m.length) : cstrEq a m = true ↔ a = m := by
  unfold cstrEq
  rw [cstrTrunc_eq_self hm]
  simp only [decide_eq_true_eq]
  constructor
  · intro h
    have hpre : cstrTrunc a <+: a := List.takeWhile_prefix _
    have h1 : (cstrTrunc a).length ≤ a.length := hpre.length_le
    rw [h] at h1
    have h2 : a.length = m.length := le_antisymm hlen h1
    have h3 : (cstrTrunc a).length = a.length := by rw [h, h2]
    have := List.IsPrefix.eq_of_length hpre h3
    rw [← this, h]
  · intro h
    rw [h, cstrTrunc_eq_self hm]

/-- Probe that matches without `erase`: the bytes are pushed back. -/
theorem ps_check_match_noerase {ps : Pstate} {hid rest : List Stackfile} {sf : Stackfile}
    {m r : List Byte}
    (hfs : ps.fs = ⟨hid, sf :: rest⟩) (he : sf.eat_tail = false)
    (hm : m ≠ []) (hr : sfRemaining sf = m ++ r) :
    ∃ sf', ps_check ps m false = (true, { ps with fs := ⟨hid, sf' :: rest⟩ }) ∧
      sfRemaining sf' = sfRemaining sf ∧ sfCfgEq sf' sf := by
  obtain ⟨sf1, hgn, hrem1, hcfg1⟩ := fs_get_n_spec m.length sf hid rest he
  rw [hr, List.take_left] at hgn
  rw [hr, List.drop_left] at hrem1
  obtain ⟨sf2, hpn, hrem2, hcfg2⟩ := fs_put_n_spec m sf1 hid rest
  refine ⟨sf2, ?_, ?_, sfCfgEq_trans hcfg2 hcfg1⟩
  · unfold ps_check
    rw [hfs, hgn]
    have hlen : ¬(m.length = 0) := by simpa using hm
    simp [hlen, cstrEq_self, hpn]
  · rw [hrem2, hrem1, hr]

/-- Probe whose pattern is not a prefix of the pending input: no match,
everything read is pushed back. -/
theorem ps_check_not_prefix {ps : Pstate} {hid rest : List Stackfile} {sf : Stackfile}
    {m : List Byte} {erase : Bool}
    (hfs : ps.fs = ⟨hid, sf :: rest⟩) (he : sf.eat_tail = false)
    (hm0 : ∀ x ∈ m, x ≠ 0) (hrne : sfRemaining sf ≠ [])
    (hnp : ¬ m <+: sfRemaining sf) :
    ∃ sf', ps_check ps m erase = (false, { ps with fs := ⟨hid, sf' :: rest⟩ }) ∧
      sfRemaining sf' = sfRemaining sf ∧ sfCfgEq sf' sf := by
  have hm : m ≠ [] := by
    intro h
    exact hnp (h ▸ List.nil_prefix)
  obtain ⟨sf1, hgn, hrem1, hcfg1⟩ := fs_get_n_spec m.length sf hid rest he
  have hinne : (sfRemaining sf).take m.length ≠ [] := by
    intro h
    rw [List.take_eq_nil_iff] at h
    rcases h with h | h
    · exact hm (by simpa using h)
    · exact hrne h
  have hineq : (sfRemaining sf).take m.length ≠ m := by
    intro h
    exact hnp (by
      rw [List.prefix_iff_eq_take]
      exact h.symm)
  have hcs : cstrEq ((sfRemaining sf).take m.length) m = false := by
    rcases hb : cstrEq ((sfRemaining sf).take m.length) m with _ | _
    · rfl
    · exact absurd ((cstrEq_iff_of_nulfree hm0 (by simp)).mp hb) hineq
  obtain ⟨sf2, hpn, hrem2, hcfg2⟩ :=
    fs_put_n_spec ((sfRemaining sf).take m.length) sf1 hid rest
  refine ⟨sf2, ?_, ?_, sfCfgEq_trans hcfg2 hcfg1⟩
  · unfold ps_check
    rw [hfs, hgn]
    simp [hcs, hm, hrne, hpn]
  · rw [hrem2, hrem1, List.take_append_drop]

/-! C4 — the match probe `ps_check`. -/

/-- C4 counterexample: with `eat_tail` pending on the top source the probe
consumes one extra byte that is never pushed back, so the input stream is
changed although the probe reports no match (claim instance at `c4_ps`,
pattern `"a"`, pending input `"bc"`). -/
theorem C4_counterexample :
    sfRemaining c4_sf = [98, 99] ∧
    (ps_check c4_ps [97] true).1 = false ∧
    sfRemaining ((ps_check c4_ps [97] true).2.fs.file.headD sfNull) = [99] ∧
    ¬ sfRemaining ((ps_check c4_ps [97] true).2.fs.file.headD sfNull) = sfRemaining c4_sf := by
  decide

/-- C4 amended: for a top source with no pending `eat_tail` and a NUL-free
candidate `m`, the probe behaves as claimed: at immediate end-of-source it
pops the top source and reports no match; if the pending bytes start with
`m` and `erase` holds they are consumed and it reports a match; if they
start with `m` and `erase` is false, and likewise whenever `m` is not a
prefix of the pending bytes, every byte read is pushed back — the pending
byte sequence is unchanged — and the reported value is whether the read
equalled `m`. -/
theorem C4_match_probe (ps : Pstate) (hid rest : List Stackfile) (sf : Stackfile)
    (m : List Byte) (erase : Bool)
    (hfs : ps.fs = ⟨hid, sf :: rest⟩) (he : sf.eat_tail = false) (hm : m ≠ []) :
    (sfRemaining sf = [] →
      ps_check ps m erase = (false, { ps with fs := ⟨hid, rest⟩ })) ∧
    (∀ r, sfRemaining sf = m ++ r → erase = true →
      ∃ sf', ps_check ps m erase = (true, { ps with fs := ⟨hid, sf' :: rest⟩ }) ∧
        sfRemaining sf' = r ∧ sfCfgEq sf' sf) ∧
    (∀ r, sfRemaining sf = m ++ r → erase = false →
      ∃ sf', ps_check ps m erase = (true, { ps with fs := ⟨hid, sf' :: rest⟩ }) ∧
        sfRemaining sf' = sfRemaining sf ∧ sfCfgEq sf' sf) ∧
    ((∀ x ∈ m, x ≠ 0) → sfRemaining sf ≠ [] → ¬ m <+: sfRemaining sf →
      ∃ sf', ps_check ps m erase = (false, { ps with fs := ⟨hid, sf' :: rest⟩ }) ∧
        sfRemaining sf' = sfRemaining sf ∧ sfCfgEq sf' sf) := by
  refine ⟨?_, ?_, ?_, ?_⟩
  · intro hr
    exact ps_check_at_eof hfs he hr
  · intro r hr herase
    subst herase
    exact ps_check_match_erase hfs he hm hr
  · intro r hr herase
    subst herase
    exact ps_check_match_noerase hfs he hm hr
  · intro hm0 hrne hnp
    exact ps_check_not_prefix hfs he hm0 hrne hnp

/-- C4 witness: probing `"-<"` with `erase` on pending input `"-<a"`
consumes the two delimiter bytes. -/
theorem C4_match_probe_witness :
    ∃ sf', ps_check c4w_ps [45, 60] true =
        (true, { c4w_ps with fs := ⟨[], sf' :: []⟩ }) ∧
      sfRemaining sf' = [97] ∧ sfCfgEq sf' (sf_new_default [45, 60, 97]) :=
  ((C4_match_probe c4w_ps [] [] (sf_new_default [45, 60, 97]) [45, 60] true rfl rfl
      (by decide)).2.1) [97] rfl rfl

/-! C6 — push-back order. -/

/-- C6 counterexample: with `eat_tail` pending on the top source,
`fs_put_n "a"` followed by `fs_get_n 1` returns `"b"` (the stream byte
behind it), not `"a"` (claim instance at `c6_fs`). -/
theorem C6_counterexample :
    (fs_get_n (fs_put_n c6_fs [97]) 1).1 = [98] ∧
    ¬ (fs_get_n (fs_put_n c6_fs [97]) 1).1 = [97] := by
  decide

/-- C6 amended: for every byte string `s` and every stack whose top source
has no pending `eat_tail`, `fs_put_n s` prepends `s` to the pending byte
sequence of the top source and a following `fs_get_n (length s)` returns
exactly `s` (the head of `s` is the next byte read). -/
theorem C6_pushback_order (fs : Filestack) (sf : Stackfile) (hid rest : List Stackfile)
    (s : List Byte) (hfs : fs = ⟨hid, sf :: rest⟩) (he : sf.eat_tail = false) :
    ∃ sf', fs_put_n fs s = ⟨hid, sf' :: rest⟩ ∧
      sfRemaining sf' = s ++ sfRemaining sf ∧
      (fs_get_n (fs_put_n fs s) s.length).1 = s := by
  obtain ⟨sf', hpn, hrem, hcfg⟩ := fs_put_n_spec s sf hid rest
  rw [← hfs] at hpn
  refine ⟨sf', hpn, hrem, ?_⟩
  have he' : sf'.eat_tail = false := by rw [sfCfgEq_eat hcfg]; exact he
  obtain ⟨sf'', hgn, _, _⟩ := fs_get_n_spec s.length sf' hid rest he'
  rw [hpn, hgn, hrem, List.take_left]

/-- C6 witness: putting back `"ab"` on a fresh source and reading two
bytes returns `"ab"`. -/
theorem C6_pushback_order_witness :
    ∃ sf', fs_put_n c6w_fs [97, 98] = ⟨[], sf' :: []⟩ ∧
      sfRemaining sf' = [97, 98] ++ sfRemaining (sf_new_default [99]) ∧
      (fs_get_n (fs_put_n c6w_fs [97, 98]) 2).1 = [97, 98] :=
  C6_pushback_order c6w_fs (sf_new_default [99]) [] [] [97, 98] rfl rfl

/-! C1 — completeness of the first-byte lookup table. -/

theorem tblGet_mem_iff (t : List Byte) (b : Byte) : tblGet t b = true ↔ b ∈ t := by
  simp [tblGet]

theorem mem_tblSet_iff (t : List Byte) (b x : Byte) : x ∈ tblSet t b ↔ x = b ∨ x ∈ t := by
  unfold tblSet
  by_cases hb : b ∈ t
  · rw [if_pos hb]
    constructor
    · exact Or.inr
    · rintro (rfl | h)
      · exact hb
      · exact h
  · rw [if_neg hb]
    exact List.mem_cons

theorem mem_tblAddPair_iff (t : List Byte) (p : Hookpair) (x : Byte) :
    x ∈ tblAddPair t p ↔
      x = strFirst p.beg ∨ x = strFirst p.hend ∨
      (∃ s, p.susp = some s ∧ x = strFirst s) ∨ x ∈ t := by
  unfold tblAddPair
  cases hs : p.susp with
  | none =>
    simp [mem_tblSet_iff]
    tauto
  | some s =>
    simp [mem_tblSet_iff]
    tauto

theorem activeDelims_of_multi_none {sf : Stackfile} (h : sf.multi = none) :
    activeDelims sf = [sf.hook.beg, sf.hook.hend, sf.hookesc] := by
  unfold activeDelims
  rw [h]

theorem activeDelims_of_multi_some {sf : Stackfile} {pairs : List Hookpair}
    (h : sf.multi = some pairs) :
    activeDelims sf = sf.hookesc :: (pairs.map pairDelims).flatten := by
  unfold activeDelims
  rw [h]

theorem sf_update_hook_cache_eq_single {sf : Stackfile} (h : sf.multi = none) :
    sf_update_hook_cache sf = sf_cache_single sf := by
  unfold sf_update_hook_cache
  rw [h]

theorem sf_update_hook_cache_eq_multi {sf : Stackfile} {pairs : List Hookpair}
    (h : sf.multi = some pairs) :
    sf_update_hook_cache sf = sf_cache_multi sf pairs := by
  unfold sf_update_hook_cache
  rw [h]

theorem bitmapComplete_cache_single {sf : Stackfile} (h : sf.multi = none) :
    bitmapComplete (sf_cache_single sf) := by
  intro d hd
  rw [activeDelims_of_multi_none (show (sf_cache_single sf).multi = none from h)] at hd
  simp only [List.mem_cons, List.not_mem_nil, or_false] at hd
  rcases hd with rfl | rfl | rfl <;>
    simp [sf_cache_single, tblGet_mem_iff, mem_tblSet_iff]

theorem bitmapComplete_cache_multi {sf1 : Stackfile} {pairs : List Hookpair} {p : Hookpair}
    (h : sf1.multi = some (pairs ++ [p]))
    (hold : ∀ d ∈ (pairs.map pairDelims).flatten,
      tblGet sf1.hook_1st_chars (strFirst d) = true) :
    bitmapComplete (sf_cache_multi sf1 (pairs ++ [p])) := by
  intro d hd
  rw [activeDelims_of_multi_some
        (show (sf_cache_multi sf1 (pairs ++ [p])).multi = some (pairs ++ [p]) from h)] at hd
  have htbl : (sf_cache_multi sf1 (pairs ++ [p])).hook_1st_chars =
      tblSet (tblAddPair sf1.hook_1st_chars p) (strFirst sf1.hookesc) := by
    unfold sf_cache_multi
    rw [List.getLastD_concat]
  rw [htbl, tblGet_mem_iff, mem_tblSet_iff, mem_tblAddPair_iff]
  simp only [List.mem_cons] at hd
  rcases hd with rfl | hd
  · exact Or.inl rfl
  · rw [List.map_append, List.flatten_append] at hd
    rw [List.mem_append] at hd
    rcases hd with hd | hd
    · have := hold d hd
      rw [tblGet_mem_iff] at this
      exact Or.inr (Or.inr (Or.inr (Or.inr this)))
    · simp only [List.map_cons, List.map_nil, List.flatten_cons, List.flatten_nil,
        List.append_nil] at hd
      unfold pairDelims at hd
      simp only [List.mem_cons] at hd
      rcases hd with rfl | rfl | hd
      · exact Or.inr (Or.inl rfl)
      · exact Or.inr (Or.inr (Or.inl rfl))
      · cases hs : p.susp with
        | none => rw [hs] at hd; simp at hd
        | some s =>
          rw [hs] at hd
          simp only [List.mem_cons, List.not_mem_nil, or_false] at hd
          exact Or.inr (Or.inr (Or.inr (Or.inl ⟨s, rfl, by rw [hd]⟩)))

theorem bitmapComplete_set_eater {sf : Stackfile} (ih : bitmapComplete sf)
    (v : Option (List Byte)) : bitmapComplete (sf_set_eater sf v) := by
  intro d hd
  cases hm : sf.multi with
  | none =>
    rw [activeDelims_of_multi_none (show (sf_set_eater sf v).multi = none from hm)] at hd
    have := ih d (by rw [activeDelims_of_multi_none hm]; exact hd)
    exact this
  | some pairs =>
    rw [activeDelims_of_multi_some
          (show (sf_set_eater sf v).multi = some pairs from hm)] at hd
    have := ih d (by rw [activeDelims_of_multi_some hm]; exact hd)
    exact this

theorem bitmapComplete_update_single {sf : Stackfile} (h : sf.multi = none) :
    bitmapComplete (sf_update_hook_cache sf) := by
  rw [sf_update_hook_cache_eq_single h]
  exact bitmapComplete_cache_single h

/-- C1 counterexample: from the defaults, set esc to `"q1"`, add the multi
pairs `("qq","zz")` and `("mm","nn")`, then set esc to `"xx"`.  The last
step clears the table bit of the old esc's first byte `q` (113), which the
still-active pair `("qq","zz")` needs: the state is reachable by the
claimed mutation set, yet its table misses `beg = "qq"`. -/
theorem C1_counterexample : SfReach c1_sfD ∧ ¬ bitmapComplete c1_sfD := by
  constructor
  · have h0 : SfReach (sf_new_default []) := SfReach.init []
    have h1 : SfReach c1_sfA := SfReach.set_hook .hesc [113, 49] h0 (by decide)
    have h2 : SfReach c1_sfB := SfReach.multi [113, 113] [122, 122] none h1 (by decide)
    have h3 : SfReach c1_sfC := SfReach.multi [109, 109] [110, 110] none h2 (by decide)
    exact SfReach.set_hook .hesc [120, 120] h3 (by decide)
  · decide

/-- C1 amended: the bitmap completeness invariant holds for every
configuration reachable from the defaults by `sf_set_eater`,
`sf_multi_hook`, and `sf_set_hook` restricted to single-hook mode.  (The
restriction is forced: in multi mode, `sf_set_hook` on `beg`/`end` frees
the pair vector but leaves the dangling pointer — undefined behavior —
and on `esc` it clears the old escape's first-byte bit even when an
earlier, non-latest pair still needs it, which `C1_counterexample`
exhibits.) -/
theorem C1_bitmap_complete (sf : Stackfile) (h : SfReachG sf) : bitmapComplete sf := by
  induction h with
  | init content =>
    show bitmapComplete (sf_update_hook_cache
      { sfNull with
        stream := content,
        hook := ⟨HOOKBEG_DEFAULT, HOOKEND_DEFAULT, none⟩,
        hookesc := HOOKESC_DEFAULT })
    exact bitmapComplete_update_single rfl
  | set_hook k v hre hm hs ih =>
    rename_i sf0 sf1
    cases k with
    | hnone =>
      unfold sf_set_hook at hs
      rw [hm] at hs
      simp only [Option.isSome_none, Bool.false_and, Bool.false_eq_true, if_false,
        Option.some.injEq] at hs
      subst hs
      exact bitmapComplete_update_single hm
    | hbeg =>
      unfold sf_set_hook at hs
      rw [hm] at hs
      simp only [Option.isSome_none, Bool.false_and, Bool.false_eq_true, if_false,
        Option.some.injEq] at hs
      subst hs
      exact bitmapComplete_update_single rfl
    | hend =>
      unfold sf_set_hook at hs
      rw [hm] at hs
      simp only [Option.isSome_none, Bool.false_and, Bool.false_eq_true, if_false,
        Option.some.injEq] at hs
      subst hs
      exact bitmapComplete_update_single rfl
    | hesc =>
      unfold sf_set_hook at hs
      rw [hm] at hs
      simp only [Option.isSome_none, Bool.false_and, Bool.false_eq_true, if_false,
        Option.some.injEq] at hs
      subst hs
      exact bitmapComplete_update_single rfl
  | set_eater v hre ih =>
    exact bitmapComplete_set_eater ih v
  | multi b e s hre hs ih =>
    rename_i sf0 sf1
    unfold sf_multi_hook at hs
    cases hesc : (cstrEq sf0.hookesc b || cstrEq sf0.hookesc e) with
    | true =>
      rw [hesc] at hs
      exact absurd hs (by simp)
    | false =>
      rw [hesc] at hs
      cases hm : sf0.multi with
      | none =>
        rw [hm] at hs
        have hs' : sf_multi_hook_grow sf0 [] b e s [] = some sf1 := hs
        unfold sf_multi_hook_grow at hs'
        rw [if_neg (by decide)] at hs'
        simp only [Option.some.injEq] at hs'
        subst hs'
        rw [@sf_update_hook_cache_eq_multi _ [⟨b, e, s⟩] rfl]
        exact @bitmapComplete_cache_multi _ [] _ rfl (by simp)
      | some ps =>
        rw [hm] at hs
        have hs' : sf_multi_hook_grow sf0 ps b e s sf0.hook_1st_chars = some sf1 := hs
        unfold sf_multi_hook_grow at hs'
        by_cases hlim : MULTI_LIMIT - 1 ≤ ps.length
        · rw [if_pos hlim] at hs'
          exact absurd hs' (by simp)
        · rw [if_neg hlim] at hs'
          simp only [Option.some.injEq] at hs'
          subst hs'
          rw [@sf_update_hook_cache_eq_multi _ (ps ++ [⟨b, e, s⟩]) rfl]
          refine bitmapComplete_cache_multi rfl ?_
          intro d hd
          exact ih d (by
            rw [activeDelims_of_multi_some hm]
            exact List.mem_cons_of_mem _ hd)

/-- C1 witness: a guarded-reachable multi-mode configuration (defaults
plus one multi pair) satisfies bitmap completeness. -/
theorem C1_bitmap_complete_witness :
    bitmapComplete ((sf_multi_hook (sf_new_default []) [97, 97] [98, 98] none).getD sfNull) :=
  C1_bitmap_complete _
    (SfReachG.multi [97, 97] [98, 98] none (SfReachG.init []) (by decide))

/-! ### C2: the hook-end sequence -/

/-- Writing the empty string to a sink changes nothing. -/
theorem ofWrite_nil (ofl : Outfile) : ofWrite ofl [] = ofl := by
  unfold ofWrite
  split <;> simp

/-- Writing to a blocked sink changes nothing. -/
theorem ofWrite_blocked (ofl : Outfile) (hb : ofl.blocked = true) (s : List Byte) :
    ofWrite ofl s = ofl := by
  unfold ofWrite
  rw [if_pos hb]

/-- One-byte step of the sink-writing effect, matching the `ps_out`
update. -/
theorem ofWrite_step (ofl : Outfile) (c : Byte) (cs : List Byte)
    (hb : ofl.blocked = false) :
    ofWrite { outBytes := ofl.outBytes ++ [c],
              lineno := if c = 10 then ofl.lineno + 1 else ofl.lineno,
              blocked := ofl.blocked } cs = ofWrite ofl (c :: cs) := by
  by_cases hc : c = 10
  · simp [ofWrite, hb, hc, List.count_cons_self]
    omega
  · simp [ofWrite, hb, hc, List.count_cons_of_ne (fun h => hc h.symm)]

/-- `ps_out_str` on a state with at least one sink: the whole string is
applied to the top sink via `ofWrite`, the rest of the state is kept. -/
theorem ps_out_str_spec :
    ∀ (s : List Byte) (ps : Pstate) (ofl : Outfile) (orest : List Outfile),
    ps.output = ofl :: orest →
    ps_out_str ps s = { ps with output := ofWrite ofl s :: orest } := by
  intro s
  induction s with
  | nil =>
    intro ps ofl orest h
    show ps = _
    rw [ofWrite_nil, ← h]
  | cons c cs ih =>
    intro ps ofl orest h
    show ps_out_str (ps_out ps c) cs = _
    by_cases hb : ofl.blocked
    · have h1 : ps_out ps c = ps := by
        unfold ps_out
        rw [h]
        show (if ofl.blocked = true then ps else _) = ps
        rw [if_pos hb]
      rw [h1, ih ps ofl orest h]
      simp only [ofWrite_blocked ofl hb]
    · have hbf : ofl.blocked = false := by
        simp at hb
        exact hb
      have h1 : ps_out ps c =
          { ps with output :=
              { outBytes := ofl.outBytes ++ [c],
                lineno := if c = 10 then ofl.lineno + 1 else ofl.lineno,
                blocked := ofl.blocked } :: orest } := by
        unfold ps_out
        rw [h]
        show (if ofl.blocked = true then ps else _) = _
        rw [if_neg hb]
      rw [h1, ih _ _ orest rfl, ofWrite_step ofl c cs hbf]

/-- `ps_mod_topfile` on a non-empty stack rewrites the top source in
place. -/
theorem ps_mod_topfile_eq (q : Pstate) (f : Stackfile → Stackfile)
    (hid1 o1 : List Stackfile) (sf1 : Stackfile)
    (h : q.fs = ⟨hid1, sf1 :: o1⟩) :
    ps_mod_topfile q f = { q with fs := ⟨hid1, f sf1 :: o1⟩ } := by
  unfold ps_mod_topfile
  rw [h]

/-- C2 (hook-end sequence): on a parser state with a top source whose
curhook stack is non-empty and with at least one output sink,
`ps_process_hook_end_seq` decrements the nesting level and (1) raises a
fatal error if the result is negative; (2) if the result is still
positive, emits the current pair's hookend bytes to the top sink and pops
the top curhook entry, leaving everything else unchanged; (3)–(4) if the
result is zero, dispatches the macro body through `ps_eval_cmd` at level
zero, propagating its error, and on success unmarks the macro on the top
source, pops curhook, and then applies the deferred `post_push` and
`post_pop` flags in that order; (5) the unmark-and-pop step only clears
`macro_on` and the curhook top of the top source; (6) a set `post_push`
flag is cleared and moves the most recently delayed-pushed source to the
top of the visible stack; (7) a set `post_pop` flag is cleared and pops
the top source; (8) clear flags leave the state untouched. -/
theorem C2_hook_end_seq (rb : RubyEval) (rbl : RubyLoad) (opf : FileOpen)
    (ps : Pstate) (hid others : List Stackfile) (sf : Stackfile)
    (pair : Hookpair) (crest : List Hookpair) (ofl : Outfile) (orest : List Outfile)
    (hfs : ps.fs = ⟨hid, sf :: others⟩)
    (hcur : sf.curhook = pair :: crest)
    (hout : ps.output = ofl :: orest) :
    (ps.in_macro_lv ≤ 0 →
      ps_process_hook_end_seq rb rbl opf ps =
        .die .fatal { ps with in_macro_lv := ps.in_macro_lv - 1 }) ∧
    (2 ≤ ps.in_macro_lv →
      ps_process_hook_end_seq rb rbl opf ps =
        .ok false { ps with
                    in_macro_lv := ps.in_macro_lv - 1,
                    fs := ⟨hid, { sf with curhook := crest } :: others⟩,
                    output := ofWrite ofl pair.hend :: orest }) ∧
    (ps.in_macro_lv = 1 →
      ∀ sev p, ps_eval_cmd rb rbl opf { ps with in_macro_lv := 0 } = .die sev p →
        ps_process_hook_end_seq rb rbl opf ps = .die sev p) ∧
    (ps.in_macro_lv = 1 →
      ∀ brk p, ps_eval_cmd rb rbl opf { ps with in_macro_lv := 0 } = .ok brk p →
        ps_process_hook_end_seq rb rbl opf ps =
          .ok brk (ps_apply_post_pop (ps_apply_post_push
            (ps_mod_topfile (ps_mod_topfile p sf_macro_unmark) ps_pop_curhook)))) ∧
    (∀ (q : Pstate) (hid1 o1 : List Stackfile) (sf1 : Stackfile),
      q.fs = ⟨hid1, sf1 :: o1⟩ →
      ps_mod_topfile (ps_mod_topfile q sf_macro_unmark) ps_pop_curhook =
        { q with
          fs := ⟨hid1, { sf1 with
                         macro_on := false,
                         curhook := sf1.curhook.tail } :: o1⟩ }) ∧
    (∀ (q : Pstate) (p : Stackfile) (h f : List Stackfile),
      q.post_push = true → q.fs = ⟨p :: h, f⟩ →
      ps_apply_post_push q = { q with post_push := false, fs := ⟨h, p :: f⟩ }) ∧
    (∀ (q : Pstate) (hh ff : List Stackfile) (sfx : Stackfile),
      q.post_pop = true → q.fs = ⟨hh, sfx :: ff⟩ →
      ps_apply_post_pop q = { q with post_pop := false, fs := ⟨hh, ff⟩ }) ∧
    (∀ q : Pstate,
      (q.post_push = false → ps_apply_post_push q = q) ∧
      (q.post_pop = false → ps_apply_post_pop q = q)) := by
  have hce : ps_current_hookend { ps with in_macro_lv := ps.in_macro_lv - 1 }
      = pair.hend := by
    show ((ps.fs.file.headD sfNull).curhook.headD hookpairNull).hend = pair.hend
    rw [hfs]
    show (sf.curhook.headD hookpairNull).hend = pair.hend
    rw [hcur]
    rfl
  refine ⟨?_, ?_, ?_, ?_, ?_, ?_, ?_, ?_⟩
  · intro hle
    unfold ps_process_hook_end_seq
    rw [if_pos (show ps.in_macro_lv - 1 < 0 by omega)]
  · intro h2
    have e1 : ps_out_str { ps with in_macro_lv := ps.in_macro_lv - 1 } pair.hend
        = { ps with
            in_macro_lv := ps.in_macro_lv - 1,
            output := ofWrite ofl pair.hend :: orest } :=
      ps_out_str_spec pair.hend _ ofl orest hout
    have e2 : ps_mod_topfile
        { ps with
          in_macro_lv := ps.in_macro_lv - 1,
          output := ofWrite ofl pair.hend :: orest } ps_pop_curhook
        = { ps with
            in_macro_lv := ps.in_macro_lv - 1,
            fs := ⟨hid, { sf with curhook := crest } :: others⟩,
            output := ofWrite ofl pair.hend :: orest } := by
      rw [ps_mod_topfile_eq
        { ps with
          in_macro_lv := ps.in_macro_lv - 1,
          output := ofWrite ofl pair.hend :: orest } ps_pop_curhook
        hid others sf hfs]
      rw [show ps_pop_curhook sf = { sf with curhook := crest } from by
        unfold ps_pop_curhook
        rw [hcur]
        rfl]
    unfold ps_process_hook_end_seq
    rw [if_neg (show ¬(ps.in_macro_lv - 1 < 0) by omega),
        if_pos (show ps.in_macro_lv - 1 ≠ 0 by omega), hce, e1, e2]
  · intro h1 sev p hev
    unfold ps_process_hook_end_seq
    rw [if_neg (show ¬(ps.in_macro_lv - 1 < 0) by omega),
        if_neg (show ¬(ps.in_macro_lv - 1 ≠ 0) by omega),
        show ps.in_macro_lv - 1 = 0 from by omega, hev]
  · intro h1 brk p hev
    unfold ps_process_hook_end_seq
    rw [if_neg (show ¬(ps.in_macro_lv - 1 < 0) by omega),
        if_neg (show ¬(ps.in_macro_lv - 1 ≠ 0) by omega),
        show ps.in_macro_lv - 1 = 0 from by omega, hev]
  · intro q hid1 o1 sf1 hq
    rw [ps_mod_topfile_eq q sf_macro_unmark hid1 o1 sf1 hq,
        ps_mod_topfile_eq _ ps_pop_curhook hid1 o1 (sf_macro_unmark sf1) rfl]
    rfl
  · intro q p h f hq hqf
    unfold ps_apply_post_push
    rw [if_pos hq, hqf]
    rfl
  · intro q hh ff sfx hq hqf
    unfold ps_apply_post_pop
    rw [if_pos hq, hqf]
    rfl
  · intro q
    constructor
    · intro hq
      unfold ps_apply_post_push
      rw [if_neg (by simp [hq])]
    · intro hq
      unfold ps_apply_post_pop
      rw [if_neg (by simp [hq])]

/-- C2 witness: at nesting depth 2 with the default pair on top of
curhook twice, the hook-end sequence emits the hookend and pops one
curhook level. -/
theorem C2_hook_end_seq_witness :
    c2_ps.fs = ⟨[], [c2_sf]⟩ ∧ c2_sf.curhook = [c2_pair, c2_pair] ∧
    c2_ps.output = [ofStd] ∧ 2 ≤ c2_ps.in_macro_lv ∧
    ps_process_hook_end_seq rbNone rblId opfNone c2_ps =
      .ok false { c2_ps with
                  in_macro_lv := c2_ps.in_macro_lv - 1,
                  fs := ⟨[], [{ c2_sf with curhook := [c2_pair] }]⟩,
                  output := [ofWrite ofStd c2_pair.hend] } :=
  ⟨rfl, rfl, rfl, by decide,
   (C2_hook_end_seq rbNone rblId opfNone c2_ps [] [] c2_sf c2_pair [c2_pair]
      ofStd [] rfl rfl rfl).2.1 (by decide)⟩

/-! ### C8: end-of-source inside a macro -/

/-- `ps_in` on a state whose visible sources are all exhausted: the pop
loop empties the visible stack and end-of-source is returned. -/
theorem ps_in_eof (q : Pstate) (hq : (fs_get_one_aux q.fs.file).1 = none) :
    ps_in q = (none, { q with fs := ⟨q.fs.hidden, []⟩ }) := by
  unfold ps_in fs_get_one
  rw [hq, (fs_get_one_aux_none_iff _).mp hq]

/-- C8 counterexample: end-of-source inside a macro is reported with
severity `error` (the code calls `mucgly_error`, printed as "error"), not
with severity `fatal` ("fatal error") as the claim states: on an exhausted
source at nesting level 1 the main-loop step dies with `error`, and the
two severities are distinct. -/
theorem C8_counterexample :
    ps_step rbNone rblId opfNone c8_ps =
      StepRes.die Severity.error { c8_ps with fs := ⟨[], []⟩ } ∧
    Severity.error ≠ Severity.fatal := by
  constructor
  · decide
  · decide

/-- C8 (amended): end-of-source while the macro nesting level is positive
is reported with severity `error` and terminates the run: (1) one
main-loop step on a state whose sources are all exhausted dies with an
`error` report whose state keeps the output stack untouched (only the
emptied input stack changes); (2) hence every longer run does the same;
(3) the escape branch inside a macro reports the same `error` when the
byte after the escape is end-of-source. -/
theorem C8_eof_report (rb : RubyEval) (rbl : RubyLoad) (opf : FileOpen)
    (ps : Pstate) (h1 : 0 < ps.in_macro_lv)
    (hget : (fs_get_one_aux ps.fs.file).1 = none) :
    ps_step rb rbl opf ps = .die .error { ps with fs := ⟨ps.fs.hidden, []⟩ } ∧
    (∀ n : Nat, ps_steps rb rbl opf (n + 1) ps =
      .die .error { ps with fs := ⟨ps.fs.hidden, []⟩ }) ∧
    (∀ q : Pstate, (fs_get_one_aux q.fs.file).1 = none →
      ps_step_esc_in rb rbl opf q =
        .die .error { q with fs := ⟨q.fs.hidden, []⟩ }) := by
  have hmain : ps_step rb rbl opf ps =
      .die .error { ps with fs := ⟨ps.fs.hidden, []⟩ } := by
    unfold ps_step
    rw [ps_in_eof ps hget]
    show stepOfEval
      (ps_process_non_hook_seq { ps with fs := ⟨ps.fs.hidden, []⟩ } none) = _
    unfold ps_process_non_hook_seq
    rw [if_pos (show ({ ps with fs := (⟨ps.fs.hidden, []⟩ : Filestack) } :
        Pstate).in_macro_lv ≠ 0 from by
      show ps.in_macro_lv ≠ 0
      omega)]
    rfl
  refine ⟨hmain, ?_, ?_⟩
  · intro n
    simp only [ps_steps, hmain]
  · intro q hq
    unfold ps_step_esc_in
    rw [ps_in_eof q hq]

/-- C8 witness: the amended statement at a concrete exhausted source one
macro level deep. -/
theorem C8_eof_report_witness :
    0 < c8_ps.in_macro_lv ∧ (fs_get_one_aux c8_ps.fs.file).1 = none ∧
    ps_step rbNone rblId opfNone c8_ps =
      .die .error { c8_ps with fs := ⟨c8_ps.fs.hidden, []⟩ } :=
  ⟨by decide, by decide,
   (C8_eof_report rbNone rblId opfNone c8_ps (by decide) (by decide)).1⟩

/-! ### C3: the suspension protocol -/

/-- A non-empty byte string starts with its `strFirst`. -/
theorem strFirst_cons {l : List Byte} (h : l ≠ []) : l = strFirst l :: l.tail := by
  cases l with
  | nil => exact absurd rfl h
  | cons a as => rfl

/-- `head?` of a non-empty byte string is its `strFirst`. -/
theorem strFirst_head {l : List Byte} (h : l ≠ []) : l.head? = some (strFirst l) := by
  cases l with
  | nil => exact absurd rfl h
  | cons a as => rfl

/-- The parser's top source on a non-empty stack. -/
theorem ps_topfileD_cons {ps : Pstate} {hid others : List Stackfile} {sf : Stackfile}
    (hfs : ps.fs = ⟨hid, sf :: others⟩) : ps_topfileD ps = sf := by
  unfold ps_topfileD
  rw [hfs]
  rfl

/-- `ps_has_file` on a non-empty stack. -/
theorem ps_has_file_cons {ps : Pstate} {hid others : List Stackfile} {sf : Stackfile}
    (hfs : ps.fs = ⟨hid, sf :: others⟩) : ps_has_file ps = true := by
  unfold ps_has_file
  rw [hfs]
  rfl

/-- `ps_in` on a top source with a pending byte: the byte is read and only
the top source changes (stream shortened, configuration view intact). -/
theorem ps_in_cons {ps : Pstate} {hid others : List Stackfile} {sf : Stackfile}
    {c : Byte} {r : List Byte}
    (hfs : ps.fs = ⟨hid, sf :: others⟩) (he : sf.eat_tail = false)
    (hr : sfRemaining sf = c :: r) :
    ∃ sf1, ps_in ps = (some c, { ps with fs := ⟨hid, sf1 :: others⟩ }) ∧
      sfRemaining sf1 = r ∧ sfCfgEq sf1 sf := by
  obtain ⟨h1, h2, h3⟩ := sf_get1_cons hr
  refine ⟨(sf_get1 sf).2, ?_, h2, h3⟩
  have haux : fs_get_one_aux (sf :: others) = (some c, (sf_get1 sf).2 :: others) := by
    unfold fs_get_one_aux
    rw [sf_get_noeat he]
    cases hsg : sf_get1 sf with
    | mk o sfx =>
      rw [hsg] at h1
      have ho : o = some c := h1
      subst ho
      rfl
  unfold ps_in fs_get_one
  rw [hfs]
  show ((fs_get_one_aux (sf :: others)).1,
        { ps with fs := { hidden := hid, file := (fs_get_one_aux (sf :: others)).2 } }) = _
  rw [haux]

/-- A main-loop step on a pending byte found in the first-byte table: the
byte is read, pushed back and the probe chain runs. -/
theorem ps_step_first_byte (rb : RubyEval) (rbl : RubyLoad) (opf : FileOpen)
    (ps : Pstate) {hid others : List Stackfile} {sf : Stackfile}
    {c : Byte} {r : List Byte}
    (hfs : ps.fs = ⟨hid, sf :: others⟩) (he : sf.eat_tail = false)
    (hr : sfRemaining sf = c :: r) (htbl : tblGet sf.hook_1st_chars c = true) :
    ∃ sf2, ps_step rb rbl opf ps =
      ps_step_probe rb rbl opf { ps with fs := ⟨hid, sf2 :: others⟩ } ∧
      sfRemaining sf2 = c :: r ∧ sfCfgEq sf2 sf := by
  obtain ⟨sf1, hin, hrem1, hcfg1⟩ := ps_in_cons hfs he hr
  refine ⟨sf_put sf1 c, ?_, ?_, sfCfgEq_trans (sf_put_cfgEq sf1 c) hcfg1⟩
  · unfold ps_step
    rw [hin]
    show (if ps_check_hook { ps with fs := ⟨hid, sf1 :: others⟩ } (some c) = true
          then ps_step_probe rb rbl opf
            (ps_fs_put { ps with fs := ⟨hid, sf1 :: others⟩ } c)
          else stepOfEval (ps_process_non_hook_seq
            { ps with fs := ⟨hid, sf1 :: others⟩ } (some c))) = _
    have hch : ps_check_hook { ps with fs := ⟨hid, sf1 :: others⟩ } (some c) = true := by
      show tblGet (ps_topfileD { ps with fs := ⟨hid, sf1 :: others⟩ }).hook_1st_chars c
        = true
      rw [show ps_topfileD { ps with fs := ⟨hid, sf1 :: others⟩ } = sf1 from rfl,
          sfCfgEq_tbl hcfg1]
      exact htbl
    rw [if_pos hch]
    show ps_step_probe rb rbl opf
      { ps with fs := fs_put (⟨hid, sf1 :: others⟩ : Filestack) c } = _
    rw [show fs_put (⟨hid, sf1 :: others⟩ : Filestack) c
      = (⟨hid, sf_put sf1 c :: others⟩ : Filestack) from rfl]
  · rw [sf_put_remaining, hrem1]

/-- The side conditions of `c3Good` only mention configuration fields, so
they transport along `sfCfgEq`. -/
theorem c3Good_cfgEq {a b : Stackfile} {susp endd : List Byte}
    (h : sfCfgEq a b) (hg : c3Good b susp endd) : c3Good a susp endd := by
  unfold c3Good at hg ⊢
  rw [sfCfgEq_eat h, sfCfgEq_curhook h, sfCfgEq_hookesc h, sfCfgEq_tbl h]
  exact hg

/-- A failed escape probe hands the probe chain to the suspension stage. -/
theorem ps_probe_susp_arm {rb : RubyEval} {rbl : RubyLoad} {opf : FileOpen}
    {ps ps3 : Pstate} (hesc : ps_check_hookesc ps = (false, ps3)) :
    ps_step_probe rb rbl opf ps = ps_probe_susp_stage rb rbl opf ps3 := by
  unfold ps_step_probe
  rw [hesc]

/-- Suspension stage on an in-macro suspension match. -/
theorem ps_probe_susp_stage_hit {rb : RubyEval} {rbl : RubyLoad} {opf : FileOpen}
    {ps ps4 : Pstate} (hmac : ps.in_macro_lv ≠ 0)
    (hchk : ps_check_hooksusp ps = (true, ps4)) :
    ps_probe_susp_stage rb rbl opf ps =
      .cont (ps_collect_str { ps4 with suspension := ps4.suspension + 1 }
        ((ps_current_hooksusp { ps4 with suspension := ps4.suspension + 1 }).getD [])) := by
  unfold ps_probe_susp_stage
  rw [if_pos hmac, hchk]

/-- Suspension stage on an in-macro suspension miss. -/
theorem ps_probe_susp_stage_miss {rb : RubyEval} {rbl : RubyLoad} {opf : FileOpen}
    {ps ps3 : Pstate} (hmac : ps.in_macro_lv ≠ 0)
    (hchk : ps_check_hooksusp ps = (false, ps3)) :
    ps_probe_susp_stage rb rbl opf ps = ps_probe_end_stage rb rbl opf ps3 := by
  unfold ps_probe_susp_stage
  rw [if_pos hmac, hchk]

/-- Hookend stage on an in-macro hookend match at suspension level zero:
the hook-end sequence runs. -/
theorem ps_probe_end_stage_hit_zero {rb : RubyEval} {rbl : RubyLoad} {opf : FileOpen}
    {ps ps4 : Pstate} (hmac : ps.in_macro_lv ≠ 0)
    (hchk : ps_check_hookend ps = (true, ps4)) (hs : ps4.suspension = 0) :
    ps_probe_end_stage rb rbl opf ps =
      stepOfEval (ps_process_hook_end_seq rb rbl opf ps4) := by
  unfold ps_probe_end_stage
  rw [if_pos hmac, hchk]
  show (if ps4.suspension = 0
        then stepOfEval (ps_process_hook_end_seq rb rbl opf ps4) else _) = _
  rw [if_pos hs]

/-- Hookend stage on an in-macro hookend match at a positive suspension
level: the level decrements and the end bytes go into the macro body. -/
theorem ps_probe_end_stage_hit_pos {rb : RubyEval} {rbl : RubyLoad} {opf : FileOpen}
    {ps ps4 : Pstate} (hmac : ps.in_macro_lv ≠ 0)
    (hchk : ps_check_hookend ps = (true, ps4)) (hs : ¬ ps4.suspension = 0) :
    ps_probe_end_stage rb rbl opf ps =
      .cont (ps_collect_str { ps4 with suspension := ps4.suspension - 1 }
        (ps_current_hookend { ps4 with suspension := ps4.suspension - 1 })) := by
  unfold ps_probe_end_stage
  rw [if_pos hmac, hchk]
  show (if ps4.suspension = 0
        then stepOfEval (ps_process_hook_end_seq rb rbl opf ps4) else _) = _
  rw [if_neg hs]

/-- A failed escape probe against input whose first byte differs from the
escape's: no match, nothing consumed. -/
theorem ps_probe_esc_fail (ps : Pstate) {hid others : List Stackfile} {sf : Stackfile}
    {b : Byte} {t : List Byte}
    (hfs : ps.fs = ⟨hid, sf :: others⟩) (he : sf.eat_tail = false)
    (hrem : sfRemaining sf = b :: t) (hb0 : b ≠ 0)
    (hescne : sf.hookesc ≠ []) (hbne : b ≠ strFirst sf.hookesc) :
    ∃ sf3, ps_check_hookesc ps = (false, { ps with fs := ⟨hid, sf3 :: others⟩ }) ∧
      sfRemaining sf3 = b :: t ∧ sfCfgEq sf3 sf := by
  have hhf : ps_has_file ps = true := ps_has_file_cons hfs
  obtain ⟨sf3, hchk, hrem3, hcfg3⟩ :=
    @ps_check_no_match ps hid others sf ((ps_topfileD ps).hookesc) b
      (strFirst sf.hookesc) true hfs he
      (show (sfRemaining sf).head? = some b from by rw [hrem]; rfl)
      (show (ps_topfileD ps).hookesc.head? = some (strFirst sf.hookesc) from by
        rw [ps_topfileD_cons hfs]
        exact strFirst_head hescne)
      hb0 hbne
  refine ⟨sf3, ?_, by rw [hrem3]; exact hrem, hcfg3⟩
  unfold ps_check_hookesc
  rw [if_neg (by simp [hhf])]
  exact hchk

/-- An in-macro suspension probe that matches the pending input exactly:
the token is consumed. -/
theorem ps_probe_susp_hit (ps : Pstate) {hid others : List Stackfile} {sf : Stackfile}
    {susp r : List Byte}
    (hfs : ps.fs = ⟨hid, sf :: others⟩) (he : sf.eat_tail = false)
    (hsusp : (sf.curhook.headD hookpairNull).susp = some susp) (hsne : susp ≠ [])
    (hrem : sfRemaining sf = susp ++ r) :
    ∃ sf4, ps_check_hooksusp ps = (true, { ps with fs := ⟨hid, sf4 :: others⟩ }) ∧
      sfRemaining sf4 = r ∧ sfCfgEq sf4 sf := by
  have hhf : ps_has_file ps = true := ps_has_file_cons hfs
  obtain ⟨sf4, hchk, hrem4, hcfg4⟩ := ps_check_match_erase hfs he hsne hrem
  refine ⟨sf4, ?_, hrem4, hcfg4⟩
  unfold ps_check_hooksusp
  rw [if_neg (by simp [hhf])]
  rw [show ps_current_hooksusp ps = some susp from by
    unfold ps_current_hooksusp
    rw [ps_topfileD_cons hfs]
    exact hsusp]
  exact hchk

/-- An in-macro suspension probe against input starting with a different
(non-NUL) byte: no match, nothing consumed. -/
theorem ps_probe_susp_miss (ps : Pstate) {hid others : List Stackfile} {sf : Stackfile}
    {susp : List Byte} {b : Byte} {t : List Byte}
    (hfs : ps.fs = ⟨hid, sf :: others⟩) (he : sf.eat_tail = false)
    (hsusp : (sf.curhook.headD hookpairNull).susp = some susp) (hsne : susp ≠ [])
    (hrem : sfRemaining sf = b :: t) (hb0 : b ≠ 0) (hbne : b ≠ strFirst susp) :
    ∃ sf3, ps_check_hooksusp ps = (false, { ps with fs := ⟨hid, sf3 :: others⟩ }) ∧
      sfRemaining sf3 = b :: t ∧ sfCfgEq sf3 sf := by
  have hhf : ps_has_file ps = true := ps_has_file_cons hfs
  obtain ⟨sf3, hchk, hrem3, hcfg3⟩ :=
    @ps_check_no_match ps hid others sf susp b (strFirst susp) true hfs he
      (show (sfRemaining sf).head? = some b from by rw [hrem]; rfl)
      (strFirst_head hsne) hb0 hbne
  refine ⟨sf3, ?_, by rw [hrem3]; exact hrem, hcfg3⟩
  unfold ps_check_hooksusp
  rw [if_neg (by simp [hhf])]
  rw [show ps_current_hooksusp ps = some susp from by
    unfold ps_current_hooksusp
    rw [ps_topfileD_cons hfs]
    exact hsusp]
  exact hchk

/-- An in-macro hookend probe that matches the pending input exactly: the
token is consumed. -/
theorem ps_probe_end_hit (ps : Pstate) {hid others : List Stackfile} {sf : Stackfile}
    {endd r : List Byte}
    (hfs : ps.fs = ⟨hid, sf :: others⟩) (he : sf.eat_tail = false)
    (hend : (sf.curhook.headD hookpairNull).hend = endd) (hene : endd ≠ [])
    (hrem : sfRemaining sf = endd ++ r) :
    ∃ sf4, ps_check_hookend ps = (true, { ps with fs := ⟨hid, sf4 :: others⟩ }) ∧
      sfRemaining sf4 = r ∧ sfCfgEq sf4 sf := by
  have hhf : ps_has_file ps = true := ps_has_file_cons hfs
  obtain ⟨sf4, hchk, hrem4, hcfg4⟩ := ps_check_match_erase hfs he hene hrem
  refine ⟨sf4, ?_, hrem4, hcfg4⟩
  unfold ps_check_hookend
  rw [if_neg (by simp [hhf])]
  rw [show ps_current_hookend ps = endd from by
    unfold ps_current_hookend
    rw [ps_topfileD_cons hfs]
    exact hend]
  exact hchk

/-- Full main-loop step on a suspension token: the token moves from the
input into the macro body and the suspension level increments. -/
theorem ps_step_susp_hit (rb : RubyEval) (rbl : RubyLoad) (opf : FileOpen)
    (ps : Pstate) {hid others : List Stackfile} {sf : Stackfile}
    {susp endd r : List Byte}
    (hfs : ps.fs = ⟨hid, sf :: others⟩) (hg : c3Good sf susp endd)
    (hmac : ps.in_macro_lv ≠ 0) (hrem : sfRemaining sf = susp ++ r) :
    ∃ sf', ps_step rb rbl opf ps =
      .cont { ps with
              fs := ⟨hid, sf' :: others⟩,
              suspension := ps.suspension + 1,
              macro_buf := ps.macro_buf ++ susp } ∧
      sfRemaining sf' = r ∧ sfCfgEq sf' sf := by
  obtain ⟨he, hcne, hsusp, hendq, hsne, hene, hs0, he0, hsne2, hesc_s, hesc_e,
    htbl_s, htbl_e, hescne⟩ := hg
  have hsplit : susp ++ r = strFirst susp :: (susp.tail ++ r) := by
    cases hsp : susp with
    | nil => exact absurd hsp hsne
    | cons a as => rfl
  obtain ⟨sf2, hstep, hrem2, hcfg2⟩ :=
    ps_step_first_byte rb rbl opf ps hfs he
      (hrem.trans hsplit) htbl_s
  have he2 : sf2.eat_tail = false := by rw [sfCfgEq_eat hcfg2]; exact he
  obtain ⟨sf3, hesc_eq, hrem3, hcfg3⟩ :=
    ps_probe_esc_fail { ps with fs := ⟨hid, sf2 :: others⟩ } rfl he2 hrem2
      hs0
      (by rw [sfCfgEq_hookesc hcfg2]; exact hescne)
      (by rw [sfCfgEq_hookesc hcfg2]; exact hesc_s.symm)
  have hcfg32 : sfCfgEq sf3 sf := sfCfgEq_trans hcfg3 hcfg2
  have he3 : sf3.eat_tail = false := by rw [sfCfgEq_eat hcfg32]; exact he
  obtain ⟨sf4, hsusp_eq, hrem4, hcfg4⟩ :=
    ps_probe_susp_hit { ps with fs := ⟨hid, sf3 :: others⟩ } rfl he3
      (by rw [sfCfgEq_curhook hcfg32]; exact hsusp) hsne
      (hrem3.trans hsplit.symm)
  refine ⟨sf4, ?_, hrem4, sfCfgEq_trans hcfg4 hcfg32⟩
  have harm : ps_step_probe rb rbl opf { ps with fs := ⟨hid, sf2 :: others⟩ } =
      ps_probe_susp_stage rb rbl opf { ps with fs := ⟨hid, sf3 :: others⟩ } :=
    ps_probe_susp_arm hesc_eq
  have hstage : ps_probe_susp_stage rb rbl opf { ps with fs := ⟨hid, sf3 :: others⟩ } =
      .cont (ps_collect_str
        { ps with fs := ⟨hid, sf4 :: others⟩, suspension := ps.suspension + 1 }
        ((ps_current_hooksusp
          { ps with fs := ⟨hid, sf4 :: others⟩, suspension := ps.suspension + 1 }).getD
          [])) :=
    ps_probe_susp_stage_hit
      (show ({ ps with fs := (⟨hid, sf3 :: others⟩ : Filestack) } : Pstate).in_macro_lv
        ≠ 0 from hmac) hsusp_eq
  rw [hstep, harm, hstage]
  rw [show ps_current_hooksusp
        { ps with fs := ⟨hid, sf4 :: others⟩, suspension := ps.suspension + 1 }
      = some susp from by
    show ((sf4.curhook).headD hookpairNull).susp = some susp
    rw [sfCfgEq_curhook (sfCfgEq_trans hcfg4 hcfg32)]
    exact hsusp]
  rfl

/-- Full main-loop step on a hookend token: the token is consumed; at a
positive suspension level it moves into the macro body with the level
decremented, at level zero the hook-end sequence runs. -/
theorem ps_step_end_hit (rb : RubyEval) (rbl : RubyLoad) (opf : FileOpen)
    (ps : Pstate) {hid others : List Stackfile} {sf : Stackfile}
    {susp endd r : List Byte}
    (hfs : ps.fs = ⟨hid, sf :: others⟩) (hg : c3Good sf susp endd)
    (hmac : ps.in_macro_lv ≠ 0) (hrem : sfRemaining sf = endd ++ r) :
    ∃ sf', sfRemaining sf' = r ∧ sfCfgEq sf' sf ∧
      (¬ ps.suspension = 0 → ps_step rb rbl opf ps =
        .cont { ps with
                fs := ⟨hid, sf' :: others⟩,
                suspension := ps.suspension - 1,
                macro_buf := ps.macro_buf ++ endd }) ∧
      (ps.suspension = 0 → ps_step rb rbl opf ps =
        stepOfEval (ps_process_hook_end_seq rb rbl opf
          { ps with fs := ⟨hid, sf' :: others⟩ })) := by
  obtain ⟨he, hcne, hsusp, hendq, hsne, hene, hs0, he0, hsne2, hesc_s, hesc_e,
    htbl_s, htbl_e, hescne⟩ := hg
  have hsplit : endd ++ r = strFirst endd :: (endd.tail ++ r) := by
    cases hsp : endd with
    | nil => exact absurd hsp hene
    | cons a as => rfl
  obtain ⟨sf2, hstep, hrem2, hcfg2⟩ :=
    ps_step_first_byte rb rbl opf ps hfs he
      (hrem.trans hsplit) htbl_e
  have he2 : sf2.eat_tail = false := by rw [sfCfgEq_eat hcfg2]; exact he
  obtain ⟨sf3, hesc_eq, hrem3, hcfg3⟩ :=
    ps_probe_esc_fail { ps with fs := ⟨hid, sf2 :: others⟩ } rfl he2 hrem2
      he0
      (by rw [sfCfgEq_hookesc hcfg2]; exact hescne)
      (by rw [sfCfgEq_hookesc hcfg2]; exact hesc_e.symm)
  have hcfg32 : sfCfgEq sf3 sf := sfCfgEq_trans hcfg3 hcfg2
  have he3 : sf3.eat_tail = false := by rw [sfCfgEq_eat hcfg32]; exact he
  obtain ⟨sf4, hmiss_eq, hrem4, hcfg4⟩ :=
    ps_probe_susp_miss { ps with fs := ⟨hid, sf3 :: others⟩ } rfl he3
      (by rw [sfCfgEq_curhook hcfg32]; exact hsusp) hsne
      hrem3 he0 hsne2.symm
  have hcfg42 : sfCfgEq sf4 sf := sfCfgEq_trans hcfg4 hcfg32
  have he4 : sf4.eat_tail = false := by rw [sfCfgEq_eat hcfg42]; exact he
  obtain ⟨sf5, hend_eq, hrem5, hcfg5⟩ :=
    ps_probe_end_hit { ps with fs := ⟨hid, sf4 :: others⟩ } rfl he4
      (by rw [sfCfgEq_curhook hcfg42]; exact hendq) hene
      (hrem4.trans hsplit.symm)
  have hcfg52 : sfCfgEq sf5 sf := sfCfgEq_trans hcfg5 hcfg42
  refine ⟨sf5, hrem5, hcfg52, ?_, ?_⟩
  all_goals
    intro hs
    have harm : ps_step_probe rb rbl opf { ps with fs := ⟨hid, sf2 :: others⟩ } =
        ps_probe_susp_stage rb rbl opf { ps with fs := ⟨hid, sf3 :: others⟩ } :=
      ps_probe_susp_arm hesc_eq
    have hstage : ps_probe_susp_stage rb rbl opf
        { ps with fs := ⟨hid, sf3 :: others⟩ } =
        ps_probe_end_stage rb rbl opf { ps with fs := ⟨hid, sf4 :: others⟩ } :=
      ps_probe_susp_stage_miss
        (show ({ ps with fs := (⟨hid, sf3 :: others⟩ : Filestack) } :
          Pstate).in_macro_lv ≠ 0 from hmac) hmiss_eq
  · have hfin : ps_probe_end_stage rb rbl opf
        { ps with fs := ⟨hid, sf4 :: others⟩ } =
        .cont (ps_collect_str
          { ps with fs := ⟨hid, sf5 :: others⟩, suspension := ps.suspension - 1 }
          (ps_current_hookend
            { ps with fs := ⟨hid, sf5 :: others⟩,
                      suspension := ps.suspension - 1 })) :=
      ps_probe_end_stage_hit_pos
        (show ({ ps with fs := (⟨hid, sf4 :: others⟩ : Filestack) } :
          Pstate).in_macro_lv ≠ 0 from hmac) hend_eq hs
    rw [hstep, harm, hstage, hfin]
    rw [show ps_current_hookend
          { ps with fs := ⟨hid, sf5 :: others⟩, suspension := ps.suspension - 1 }
        = endd from by
      show ((sf5.curhook).headD hookpairNull).hend = endd
      rw [sfCfgEq_curhook hcfg52]
      exact hendq]
    rfl
  · have hfin : ps_probe_end_stage rb rbl opf
        { ps with fs := ⟨hid, sf4 :: others⟩ } =
        stepOfEval (ps_process_hook_end_seq rb rbl opf
          { ps with fs := ⟨hid, sf5 :: others⟩ }) :=
      ps_probe_end_stage_hit_zero
        (show ({ ps with fs := (⟨hid, sf4 :: others⟩ : Filestack) } :
          Pstate).in_macro_lv ≠ 0 from hmac) hend_eq hs
    rw [hstep, harm, hstage, hfin]

/-- One loop iteration is one step whatever the outcome. -/
theorem ps_steps_one (rb : RubyEval) (rbl : RubyLoad) (opf : FileOpen) (ps : Pstate) :
    ps_steps rb rbl opf 1 ps = ps_step rb rbl opf ps := by
  cases h : ps_step rb rbl opf ps <;> simp only [ps_steps, h]

/-- Loop iterations compose: a budget of `a + b` runs `a` iterations and,
if still continuing, `b` more. -/
theorem ps_steps_add (rb : RubyEval) (rbl : RubyLoad) (opf : FileOpen) (a : Nat) :
    ∀ (b : Nat) (ps : Pstate),
    ps_steps rb rbl opf (a + b) ps =
      match ps_steps rb rbl opf a ps with
      | .cont q => ps_steps rb rbl opf b q
      | r => r := by
  induction a with
  | zero =>
    intro b ps
    rw [Nat.zero_add]
    rfl
  | succ n ih =>
    intro b ps
    rw [Nat.succ_add]
    simp only [ps_steps]
    cases h : ps_step rb rbl opf ps with
    | cont q => exact ih b q
    | stop q => rfl
    | die sev q => rfl
    | ub => rfl

/-- Unfolding one copy out of a repeated token. -/
theorem rep_succ (n : Nat) (s : List Byte) : rep (n + 1) s = s ++ rep n s := by
  unfold rep
  rw [List.replicate_succ]
  rfl

/-- Phase one of the suspension protocol: `k` consecutive suspension
tokens raise the suspension level by `k` and land verbatim in the macro
body. -/
theorem ps_steps_susp_phase (rb : RubyEval) (rbl : RubyLoad) (opf : FileOpen)
    (k : Nat) :
    ∀ (ps : Pstate) (hid others : List Stackfile) (sf : Stackfile)
      (susp endd r : List Byte),
    ps.fs = ⟨hid, sf :: others⟩ → c3Good sf susp endd → ps.in_macro_lv ≠ 0 →
    sfRemaining sf = rep k susp ++ r →
    ∃ sf', ps_steps rb rbl opf k ps =
      .cont { ps with
              fs := ⟨hid, sf' :: others⟩,
              suspension := ps.suspension + (k : Int),
              macro_buf := ps.macro_buf ++ rep k susp } ∧
      sfRemaining sf' = r ∧ sfCfgEq sf' sf := by
  induction k with
  | zero =>
    intro ps hid others sf susp endd r hfs hg hmac hrem
    refine ⟨sf, ?_, by simpa [rep] using hrem, sfCfgEq_refl sf⟩
    show StepRes.cont ps = _
    rw [← hfs]
    simp [rep]
  | succ k ih =>
    intro ps hid others sf susp endd r hfs hg hmac hrem
    obtain ⟨sf1, hstep, hrem1, hcfg1⟩ :=
      ps_step_susp_hit rb rbl opf ps hfs hg hmac
        (show sfRemaining sf = susp ++ (rep k susp ++ r) from by
          rw [hrem, rep_succ, List.append_assoc])
    obtain ⟨sf', hsteps, hrem', hcfg'⟩ :=
      ih { ps with
           fs := ⟨hid, sf1 :: others⟩,
           suspension := ps.suspension + 1,
           macro_buf := ps.macro_buf ++ susp }
        hid others sf1 susp endd r rfl (c3Good_cfgEq hcfg1 hg) hmac hrem1
    refine ⟨sf', ?_, hrem', sfCfgEq_trans hcfg' hcfg1⟩
    simp only [ps_steps]
    rw [hstep]
    show ps_steps rb rbl opf k
      { ps with
        fs := ⟨hid, sf1 :: others⟩,
        suspension := ps.suspension + 1,
        macro_buf := ps.macro_buf ++ susp } = _
    rw [hsteps]
    show StepRes.cont
      { ps with
        fs := ⟨hid, sf' :: others⟩,
        suspension := ps.suspension + 1 + (k : Int),
        macro_buf := (ps.macro_buf ++ susp) ++ rep k susp } = _
    rw [show ps.suspension + 1 + (k : Int) = ps.suspension + ((k : Int) + 1) from by
          ring,
        show (ps.macro_buf ++ susp) ++ rep k susp = ps.macro_buf ++ rep (k + 1) susp
          from by rw [rep_succ, List.append_assoc]]
    rfl

/-- Phase two of the suspension protocol: with at least `k` pending
suspension levels, `k` consecutive hookend tokens lower the level by `k`
and land verbatim in the macro body. -/
theorem ps_steps_end_phase (rb : RubyEval) (rbl : RubyLoad) (opf : FileOpen)
    (k : Nat) :
    ∀ (ps : Pstate) (hid others : List Stackfile) (sf : Stackfile)
      (susp endd r : List Byte),
    ps.fs = ⟨hid, sf :: others⟩ → c3Good sf susp endd → ps.in_macro_lv ≠ 0 →
    (k : Int) ≤ ps.suspension →
    sfRemaining sf = rep k endd ++ r →
    ∃ sf', ps_steps rb rbl opf k ps =
      .cont { ps with
              fs := ⟨hid, sf' :: others⟩,
              suspension := ps.suspension - (k : Int),
              macro_buf := ps.macro_buf ++ rep k endd } ∧
      sfRemaining sf' = r ∧ sfCfgEq sf' sf := by
  induction k with
  | zero =>
    intro ps hid others sf susp endd r hfs hg hmac hk hrem
    refine ⟨sf, ?_, by simpa [rep] using hrem, sfCfgEq_refl sf⟩
    show StepRes.cont ps = _
    rw [← hfs]
    simp [rep]
  | succ k ih =>
    intro ps hid others sf susp endd r hfs hg hmac hk hrem
    obtain ⟨sf1, hrem1, hcfg1, hpos, _⟩ :=
      ps_step_end_hit rb rbl opf ps hfs hg hmac
        (show sfRemaining sf = endd ++ (rep k endd ++ r) from by
          rw [hrem, rep_succ, List.append_assoc])
    have hstep := hpos (show ¬ ps.suspension = 0 from by
      intro h0
      rw [h0] at hk
      simp at hk
      omega)
    obtain ⟨sf', hsteps, hrem', hcfg'⟩ :=
      ih { ps with
           fs := ⟨hid, sf1 :: others⟩,
           suspension := ps.suspension - 1,
           macro_buf := ps.macro_buf ++ endd }
        hid others sf1 susp endd r rfl (c3Good_cfgEq hcfg1 hg) hmac
        (show (k : Int) ≤ ps.suspension - 1 from by
          push_cast at hk ⊢
          omega)
        hrem1
    refine ⟨sf', ?_, hrem', sfCfgEq_trans hcfg' hcfg1⟩
    simp only [ps_steps]
    rw [hstep]
    show ps_steps rb rbl opf k
      { ps with
        fs := ⟨hid, sf1 :: others⟩,
        suspension := ps.suspension - 1,
        macro_buf := ps.macro_buf ++ endd } = _
    rw [hsteps]
    show StepRes.cont
      { ps with
        fs := ⟨hid, sf' :: others⟩,
        suspension := ps.suspension - 1 - (k : Int),
        macro_buf := (ps.macro_buf ++ endd) ++ rep k endd } = _
    rw [show ps.suspension - 1 - (k : Int) = ps.suspension - ((k : Int) + 1) from by
          ring,
        show (ps.macro_buf ++ endd) ++ rep k endd = ps.macro_buf ++ rep (k + 1) endd
          from by rw [rep_succ, List.append_assoc]]
    rfl

/-- C3 (suspension protocol): inside a macro (on a top source meeting the
first-byte side conditions `c3Good`): (1) a match of the current pair's
susp token increments the suspension level and appends the susp bytes to
the macro body; (2) a match of the current pair's end token at a positive
suspension level decrements the level and appends the end bytes verbatim
to the macro body; (3) a match of the end token at suspension level zero
consumes it and runs the hook-end sequence; (4) hence starting at
suspension level zero, `n` susp tokens followed by `n` end tokens leave
the `n` end tokens verbatim in the macro body, and the `(n+1)`-th end
token is consumed and dispatches the hook-end sequence. -/
theorem C3_suspension_protocol (rb : RubyEval) (rbl : RubyLoad) (opf : FileOpen)
    (ps : Pstate) (hid others : List Stackfile) (sf : Stackfile)
    (susp endd : List Byte)
    (hfs : ps.fs = ⟨hid, sf :: others⟩) (hg : c3Good sf susp endd)
    (hmac : ps.in_macro_lv ≠ 0) :
    (∀ r, sfRemaining sf = susp ++ r →
      ∃ sf', ps_step rb rbl opf ps =
        .cont { ps with
                fs := ⟨hid, sf' :: others⟩,
                suspension := ps.suspension + 1,
                macro_buf := ps.macro_buf ++ susp } ∧
        sfRemaining sf' = r ∧ sfCfgEq sf' sf) ∧
    (∀ r, ¬ ps.suspension = 0 → sfRemaining sf = endd ++ r →
      ∃ sf', ps_step rb rbl opf ps =
        .cont { ps with
                fs := ⟨hid, sf' :: others⟩,
                suspension := ps.suspension - 1,
                macro_buf := ps.macro_buf ++ endd } ∧
        sfRemaining sf' = r ∧ sfCfgEq sf' sf) ∧
    (∀ r, ps.suspension = 0 → sfRemaining sf = endd ++ r →
      ∃ sf', ps_step rb rbl opf ps =
        stepOfEval (ps_process_hook_end_seq rb rbl opf
          { ps with fs := ⟨hid, sf' :: others⟩ }) ∧
        sfRemaining sf' = r ∧ sfCfgEq sf' sf) ∧
    (∀ (n : Nat) (rest : List Byte), ps.suspension = 0 →
      sfRemaining sf = rep n susp ++ rep n endd ++ endd ++ rest →
      ∃ sf1 sf2,
        ps_steps rb rbl opf (2 * n) ps =
          .cont { ps with
                  fs := ⟨hid, sf1 :: others⟩,
                  macro_buf := ps.macro_buf ++ (rep n susp ++ rep n endd) } ∧
        sfRemaining sf1 = endd ++ rest ∧ sfCfgEq sf1 sf ∧
        ps_steps rb rbl opf (2 * n + 1) ps =
          stepOfEval (ps_process_hook_end_seq rb rbl opf
            { ps with
              fs := ⟨hid, sf2 :: others⟩,
              macro_buf := ps.macro_buf ++ (rep n susp ++ rep n endd) }) ∧
        sfRemaining sf2 = rest ∧ sfCfgEq sf2 sf) := by
  refine ⟨?_, ?_, ?_, ?_⟩
  · intro r hr
    exact ps_step_susp_hit rb rbl opf ps hfs hg hmac hr
  · intro r hs hr
    obtain ⟨sf', hrem', hcfg', hpos, _⟩ :=
      ps_step_end_hit rb rbl opf ps hfs hg hmac hr
    exact ⟨sf', hpos hs, hrem', hcfg'⟩
  · intro r hs hr
    obtain ⟨sf', hrem', hcfg', _, hzero⟩ :=
      ps_step_end_hit rb rbl opf ps hfs hg hmac hr
    exact ⟨sf', hzero hs, hrem', hcfg'⟩
  · intro n rest hsusp0 hrem
    obtain ⟨sfA, hph1, hremA, hcfgA⟩ :=
      ps_steps_susp_phase rb rbl opf n ps hid others sf susp endd
        (rep n endd ++ (endd ++ rest)) hfs hg hmac
        (by rw [hrem]; simp [List.append_assoc])
    obtain ⟨sfB, hph2, hremB, hcfgB⟩ :=
      ps_steps_end_phase rb rbl opf n
        { ps with
          fs := ⟨hid, sfA :: others⟩,
          suspension := ps.suspension + (n : Int),
          macro_buf := ps.macro_buf ++ rep n susp }
        hid others sfA susp endd (endd ++ rest)
        rfl (c3Good_cfgEq hcfgA hg) hmac
        (show (n : Int) ≤ ps.suspension + (n : Int) from by
          rw [hsusp0]
          omega)
        hremA
    have hcfgBsf : sfCfgEq sfB sf := sfCfgEq_trans hcfgB hcfgA
    have h2n : ps_steps rb rbl opf (2 * n) ps =
        .cont { ps with
                fs := ⟨hid, sfB :: others⟩,
                macro_buf := ps.macro_buf ++ (rep n susp ++ rep n endd) } := by
      rw [Nat.two_mul, ps_steps_add rb rbl opf n n ps, hph1]
      show ps_steps rb rbl opf n
        { ps with
          fs := ⟨hid, sfA :: others⟩,
          suspension := ps.suspension + (n : Int),
          macro_buf := ps.macro_buf ++ rep n susp } = _
      rw [hph2]
      show StepRes.cont
        { ps with
          fs := ⟨hid, sfB :: others⟩,
          suspension := ps.suspension + (n : Int) - (n : Int),
          macro_buf := (ps.macro_buf ++ rep n susp) ++ rep n endd } = _
      rw [show ps.suspension + (n : Int) - (n : Int) = ps.suspension from by ring,
          List.append_assoc]
    obtain ⟨sfC, hremC, hcfgC, _, hzero⟩ :=
      ps_step_end_hit rb rbl opf
        { ps with
          fs := ⟨hid, sfB :: others⟩,
          macro_buf := ps.macro_buf ++ (rep n susp ++ rep n endd) }
        rfl (c3Good_cfgEq hcfgBsf hg) hmac hremB
    have hstepN := hzero hsusp0
    have h2n1 : ps_steps rb rbl opf (2 * n + 1) ps =
        stepOfEval (ps_process_hook_end_seq rb rbl opf
          { ps with
            fs := ⟨hid, sfC :: others⟩,
            macro_buf := ps.macro_buf ++ (rep n susp ++ rep n endd) }) := by
      rw [ps_steps_add rb rbl opf (2 * n) 1 ps, h2n]
      show ps_steps rb rbl opf 1
        { ps with
          fs := ⟨hid, sfB :: others⟩,
          macro_buf := ps.macro_buf ++ (rep n susp ++ rep n endd) } = _
      rw [ps_steps_one, hstepN]
    exact ⟨sfB, sfC, h2n, hremB, hcfgBsf, h2n1, hremC,
      sfCfgEq_trans hcfgC hcfgBsf⟩

/-- C3 witness: with susp `"!!"` and end `">-"`, one susp token plus two
end tokens run the protocol at a concrete state: the first end lands
verbatim in the macro body, the second dispatches the hook-end
sequence. -/
theorem C3_suspension_protocol_witness :
    c3_ps.fs = ⟨[], [c3_sf]⟩ ∧ c3Good c3_sf [33, 33] [62, 45] ∧
    c3_ps.in_macro_lv ≠ 0 ∧ c3_ps.suspension = 0 ∧
    sfRemaining c3_sf = rep 1 [33, 33] ++ rep 1 [62, 45] ++ [62, 45] ++ [] ∧
    (∃ sf1 sf2,
      ps_steps rbNone rblId opfNone (2 * 1) c3_ps =
        .cont { c3_ps with
                fs := ⟨[], [sf1]⟩,
                macro_buf := c3_ps.macro_buf ++ (rep 1 [33, 33] ++ rep 1 [62, 45]) } ∧
      sfRemaining sf1 = [62, 45] ++ [] ∧ sfCfgEq sf1 c3_sf ∧
      ps_steps rbNone rblId opfNone (2 * 1 + 1) c3_ps =
        stepOfEval (ps_process_hook_end_seq rbNone rblId opfNone
          { c3_ps with
            fs := ⟨[], [sf2]⟩,
            macro_buf := c3_ps.macro_buf ++ (rep 1 [33, 33] ++ rep 1 [62, 45]) }) ∧
      sfRemaining sf2 = [] ∧ sfCfgEq sf2 c3_sf) :=
  ⟨rfl, by decide, by decide, rfl, by decide,
   (C3_suspension_protocol rbNone rblId opfNone c3_ps [] [] c3_sf [33, 33] [62, 45]
      rfl (by decide) (by decide)).2.2.2 1 [] rfl (by decide)⟩

end Mucgly
